import Mathlib

/-!
Verification of the `workflow-data` record utilities (`src/dev.js`).

The development shallowly embeds the library's data model and operations:

* a JS primitive value is `Value` (integers, strings, `undefined`); numbers are
  modelled on the integer fragment of JS doubles, which is exact for every
  value appearing in the library's documentation and examples;
* a JS object/record is an insertion-ordered association list `Rec`;
* filter criteria are `Criteria`: each key maps either to a single value or to
  an array of admissible values;
* fallible operations return `Except String`, carrying the exact message the
  JS code would throw.

Definitions are translated from the source; functions named `spec...` instead
transcribe the specification's words for comparison with the code.
-/

namespace WorkflowData

/-- A primitive JS value as used by the library: a number (integer fragment),
a string, or `undefined` (the result of reading a missing property). -/
inductive Value where
  | num (n : Int)
  | str (s : String)
  | undef
deriving DecidableEq, Repr

/-- A JS object: an insertion-ordered list of `(key, value)` bindings. -/
abbrev Rec := List (String × Value)

/-- Whether a value is a number (`typeof v === "number"`). -/
def Value.isNum : Value → Bool
  | .num _ => true
  | _ => false

/-- Whether a value is a string (`typeof v === "string"`). -/
def Value.isStr : Value → Bool
  | .str _ => true
  | _ => false

/-- JS property read `obj[key]`: the first binding for the key wins; a missing
key reads as `undefined`. -/
def getField : Rec → String → Value
  | [], _ => .undef
  | (k, v) :: rest, key => if k = key then v else getField rest key

/-- JS property write `obj[key] = v`: an existing binding is overwritten in
place (keeping its position); a new key is appended at the end. -/
def setField : Rec → String → Value → Rec
  | [], key, v => [(key, v)]
  | (k, w) :: rest, key, v =>
    if k = key then (k, v) :: rest else (k, w) :: setField rest key v

/-- A criterion value: either a single required value or an array of
admissible values (`Array.isArray(criteria[key])` distinguishes the two). -/
inductive CritV where
  | val (v : Value)
  | arr (l : List Value)
deriving DecidableEq

/-- A criteria object: keys paired with criterion values. -/
abbrev Criteria := List (String × CritV)

/-- `matches(obj, criteria)` from `src/dev.js`: every key of the criteria must
hold, an array criterion is a membership test (`includes`, exact equality, no
coercion), a plain criterion is strict equality (`===`). -/
def matchesCrit (obj : Rec) (criteria : Criteria) : Bool :=
  criteria.all (fun kv =>
    match kv.2 with
    | .arr l => l.any (fun w => decide (getField obj kv.1 = w))
    | .val v => decide (getField obj kv.1 = v))

/-- `filter(data, filterCriteria)` from `src/dev.js` (lines 588-604): keeps the
records matching the criteria.  The runtime type checks on `data` and
`filterCriteria` are discharged by the types of the embedding. -/
def filter (data : List Rec) (criteria : Criteria) : List Rec :=
  data.filter (fun obj => matchesCrit obj criteria)

/-- Application of the `updates` object to one record: each entry of `updates`
is assigned in order (`obj[key] = value`). -/
def applyUpdates (obj : Rec) (updates : Rec) : Rec :=
  updates.foldl (fun acc kv => setField acc kv.1 kv.2) obj

/-- `update(data, filterCriteria, updates)` from `src/dev.js` (lines 613-637):
patches every matching record with the updates.  The in-place mutation is
modelled by returning the final contents of the array. -/
def update (data : List Rec) (criteria : Criteria) (updates : Rec) : List Rec :=
  data.map (fun obj => if matchesCrit obj criteria then applyUpdates obj updates else obj)

/-- The backwards index loop of `erase`: `i` counts the indices still to
visit, so the step inspects index `i` and recurses; `splice(i, 1)` is
`List.eraseIdx`. -/
def eraseLoop (criteria : Criteria) : Nat → List Rec → List Rec
  | 0, d => d
  | i + 1, d => eraseLoop criteria i (if matchesCrit (d.getD i []) criteria then d.eraseIdx i else d)

/-- `erase(data, filterCriteria)` from `src/dev.js` (lines 645-664): removes
every matching record, iterating from the last index down to 0 and splicing.
The in-place mutation is modelled by returning the final contents. -/
def erase (data : List Rec) (criteria : Criteria) : List Rec :=
  eraseLoop criteria data.length data

theorem eraseLoop_eq (criteria : Criteria) :
    ∀ (i : Nat) (d : List Rec), i ≤ d.length →
      eraseLoop criteria i d =
        (d.take i).filter (fun r => !(matchesCrit r criteria)) ++ d.drop i := by
  intro i
  induction i with
  | zero => intro d _; simp [eraseLoop]
  | succ i ih =>
    intro d
    intro hle
    have hi : i < d.length := Nat.lt_of_succ_le hle
    have hd : d.getD i [] = d.get ⟨i, hi⟩ := by
      simp [List.getD_eq_getElem?_getD, List.getElem?_eq_getElem hi]
    rw [eraseLoop]
    by_cases hm : matchesCrit (d.getD i []) criteria = true
    · rw [if_pos hm]
      have hlen : i ≤ (d.eraseIdx i).length := by
        rw [List.length_eraseIdx_of_lt hi]
        omega
      rw [ih _ hlen]
      have htake : (d.eraseIdx i).take i = d.take i := by
        rw [List.eraseIdx_eq_take_drop_succ]
        rw [List.take_append_eq_append_take]
        have h0 : i - (d.take i).length = 0 := by
          simp [List.length_take, Nat.min_eq_left (Nat.le_of_lt hi)]
        simp only [h0, List.take_zero, List.append_nil, List.take_take]
        simp [Nat.min_self]
      have hdrop : (d.eraseIdx i).drop i = d.drop (i + 1) := by
        rw [List.eraseIdx_eq_take_drop_succ]
        rw [List.drop_append_eq_append_drop]
        have h1 : (d.take i).length = i := by
          simp [List.length_take, Nat.min_eq_left (Nat.le_of_lt hi)]
        simp [h1]
      rw [htake, hdrop]
      have htake1 : d.take (i + 1) = d.take i ++ [d.get ⟨i, hi⟩] := by
        rw [List.take_succ]
        simp [List.getElem?_eq_getElem hi]
      rw [htake1, List.filter_append]
      have hm2 : matchesCrit d[i] criteria = true := by
        have h := hm
        rwa [hd, List.get_eq_getElem] at h
      simp [hm2]
    · rw [if_neg hm]
      have hle' : i ≤ d.length := Nat.le_of_lt hi
      rw [ih _ hle']
      have htake1 : d.take (i + 1) = d.take i ++ [d.get ⟨i, hi⟩] := by
        rw [List.take_succ]
        simp [List.getElem?_eq_getElem hi]
      have hdrop : d.drop i = d.get ⟨i, hi⟩ :: d.drop (i + 1) := by
        rw [List.drop_eq_getElem_cons hi]
        simp
      rw [htake1, List.filter_append, hdrop]
      have hm2 : matchesCrit d[i] criteria = false := by
        have h : matchesCrit (d.get ⟨i, hi⟩) criteria = false := by
          rw [← hd]
          exact Bool.eq_false_iff.mpr hm
        rwa [List.get_eq_getElem] at h
      simp [hm2]

/-- The backwards splice loop of `erase` leaves exactly the non-matching
records, in their original order. -/
theorem erase_eq_filter_not (data : List Rec) (criteria : Criteria) :
    erase data criteria = data.filter (fun r => !(matchesCrit r criteria)) := by
  have := eraseLoop_eq criteria data.length data (Nat.le_refl _)
  simpa [erase] using this

/-- C5: `erase` removes in place all and only the records matching the
criteria, preserving the relative order of the survivors, even across
adjacent runs of matching records; in particular, for a 5-record collection
where records 2, 3 and 4 match, exactly records 1 and 5 remain, in order. -/
theorem c5_erase_removes_exactly_matching :
    (∀ (data : List Rec) (criteria : Criteria),
      erase data criteria = data.filter (fun r => !(matchesCrit r criteria)))
    ∧ erase
        [[("id", .num 1), ("g", .num 0)],
         [("id", .num 2), ("g", .num 1)],
         [("id", .num 3), ("g", .num 1)],
         [("id", .num 4), ("g", .num 1)],
         [("id", .num 5), ("g", .num 0)]]
        [("g", CritV.val (.num 1))] =
        [[("id", .num 1), ("g", .num 0)],
         [("id", .num 5), ("g", .num 0)]] := by
  constructor
  · exact erase_eq_filter_not
  · decide

/-- C6: an empty (but non-null) criteria object matches every record
vacuously: `filter` returns all records, `update` patches all records, and
`erase` removes all records. -/
theorem c6_empty_criteria_matches_all :
    ∀ (data : List Rec) (updates : Rec),
      filter data [] = data
      ∧ update data [] updates = data.map (fun r => applyUpdates r updates)
      ∧ erase data [] = [] := by
  intro data updates
  have h : ∀ obj : Rec, matchesCrit obj [] = true := fun _ => rfl
  refine ⟨?_, ?_, ?_⟩
  · unfold filter
    simp [h]
  · unfold update
    simp [h]
  · rw [erase_eq_filter_not]
    simp [h]

/-- C8: the matcher uses exact equality with no cross-type coercion: a
numeric criterion never matches a field holding a textual value, both as a
single-value criterion and as an element of a sequence-membership criterion
all of whose elements are numeric. -/
theorem c8_matcher_no_type_coercion
    (k s : String) (n : Int) (obj : Rec)
    (hfield : getField obj k = .str s) :
    matchesCrit obj [(k, CritV.val (.num n))] = false
    ∧ ∀ (l : List Value), (∀ v ∈ l, v.isNum = true) →
        matchesCrit obj [(k, CritV.arr l)] = false := by
  constructor
  · simp [matchesCrit, hfield]
  · intro l hl
    simp only [matchesCrit, List.all_cons, List.all_nil, Bool.and_true]
    rw [hfield]
    rw [Bool.eq_false_iff]
    intro hcontra
    rw [List.any_eq_true] at hcontra
    obtain ⟨w, hw, hweq⟩ := hcontra
    have heq : Value.str s = w := of_decide_eq_true hweq
    have hnum := hl w hw
    rw [← heq] at hnum
    simp [Value.isNum] at hnum

/-- Witness for C8 at a concrete input: the record field is the text "5",
the criteria carry the number 5. -/
theorem c8_matcher_no_type_coercion_witness :
    matchesCrit [("a", Value.str "5")] [("a", CritV.val (.num 5))] = false
    ∧ matchesCrit [("a", Value.str "5")] [("a", CritV.arr [Value.num 5])] = false := by
  refine ⟨(c8_matcher_no_type_coercion "a" "5" 5 [("a", Value.str "5")] (by decide)).1, ?_⟩
  exact (c8_matcher_no_type_coercion "a" "5" 5 [("a", Value.str "5")] (by decide)).2
    [Value.num 5] (by decide)

/-! ### JS value coercions used by `pivot` -/

/-- Decimal digit character (only meaningful for `d < 10`). -/
def digitChar (d : Nat) : Char :=
  match d with
  | 0 => '0' | 1 => '1' | 2 => '2' | 3 => '3' | 4 => '4'
  | 5 => '5' | 6 => '6' | 7 => '7' | 8 => '8' | _ => '9'

/-- Decimal digits of a natural number, most significant first; the first
argument is recursion fuel (`n + 1` is always enough, since `n / 10 < n`). -/
def natDigits : Nat → Nat → List Char
  | 0, _ => []
  | fuel + 1, n => if n < 10 then [digitChar n] else natDigits fuel (n / 10) ++ [digitChar (n % 10)]

/-- Decimal string of a natural number. -/
def jsNatToString (n : Nat) : String := String.mk (natDigits (n + 1) n)

/-- `String(n)` / `JSON.stringify(n)` for a JS number on the integer
fragment: usual signed decimal notation. -/
def jsNumToString (i : Int) : String :=
  if i < 0 then "-" ++ jsNatToString i.natAbs else jsNatToString i.toNat

/-- JS `String(v)` / `ToString` on primitive values. -/
def jsToString : Value → String
  | .num n => jsNumToString n
  | .str s => s
  | .undef => "undefined"

/-- JS truthiness of a primitive value: `0`, the empty string and
`undefined` are falsy. -/
def Value.truthy : Value → Bool
  | .num n => decide (n ≠ 0)
  | .str s => decide (s ≠ "")
  | .undef => false

/-- JS `a || b`: `a` when truthy, otherwise `b`. -/
def jsOr (a b : Value) : Value := if a.truthy then a else b

/-- JS `a + b` on primitive values: string concatenation (after `ToString`)
as soon as one side is a string, numeric addition on two numbers.  The
`undefined + number` case (whose JS result, `NaN`, is outside the value
model) is unreachable in `pivot`: the left operand has been defaulted by
`|| 0` and the right operand has passed the `typeof value" check. -/
def jsAdd : Value → Value → Value
  | .str a, b => .str (a ++ jsToString b)
  | .num a, .str b => .str (jsNumToString a ++ b)
  | .undef, .str b => .str ("undefined" ++ b)
  | .num a, .num b => .num (a + b)
  | _, _ => Value.undef -- stands for NaN, unreachable in pivot

/-! ### The `pivot` operation -/

/-- A JS `Map` with `Value` keys: an insertion-ordered association list;
`has`/`get` use SameValueZero key equality, which on our primitive values is
structural equality. -/
abbrev VMap := List (Value × Rec)

/-- `Map.prototype.has`. -/
def mapHas (m : VMap) (k : Value) : Bool := m.any (fun e => decide (e.1 = k))

/-- `Map.prototype.get`, defaulting to the empty record (the `undefined`
case is unreachable in `pivot`, which always `set`s the key first). -/
def mapGet : VMap → Value → Rec
  | [], _ => []
  | e :: rest, k => if e.1 = k then e.2 else mapGet rest k

/-- `Map.prototype.set`: overwriting keeps the entry position, a new key is
appended. -/
def mapSet : VMap → Value → Rec → VMap
  | [], k, r => [(k, r)]
  | e :: rest, k, r => if e.1 = k then (k, r) :: rest else e :: mapSet rest k r

/-- The error message thrown by `pivot` for a non-numeric aggregated value. -/
def pivotMsg (valueKey : String) (idx : Nat) : String :=
  s!"pivot: value for key \"{valueKey}\" in item at index {idx} should be a number."

/-- The `data.forEach` loop of `pivot` (lines 692-710 of `src/dev.js`),
with the accumulator map made explicit; a thrown `TypeError` aborts the
whole call.  The `typeof item` guard is discharged by the `Rec` type. -/
def pivotLoop (rowKey colKey valueKey : String) :
    List Rec → Nat → VMap → Except String VMap
  | [], _, m => .ok m
  | item :: rest, idx, m =>
    let rowVal := getField item rowKey
    let colVal := getField item colKey
    let value := getField item valueKey
    if value.isNum then
      let m1 := if mapHas m rowVal then m else mapSet m rowVal [(rowKey, rowVal)]
      let row := mapGet m1 rowVal
      let ck := jsToString colVal
      let row2 := setField row ck (jsAdd (jsOr (getField row ck) (.num 0)) value)
      pivotLoop rowKey colKey valueKey rest (idx + 1) (mapSet m1 rowVal row2)
    else .error (pivotMsg valueKey idx)

/-- `pivot(data, rowKey, colKey, valueKey)` from `src/dev.js`
(lines 678-714): the final result is the sequence of accumulator rows in
map insertion order. -/
def pivot (data : List Rec) (rowKey colKey valueKey : String) :
    Except String (List Rec) :=
  (pivotLoop rowKey colKey valueKey data 0 []).map (fun m => m.map Prod.snd)

theorem pivotLoop_error (rowKey colKey valueKey : String) :
    ∀ (rest : List Rec) (i : Nat) (idx : Nat) (m : VMap),
      i < rest.length →
      (getField (rest.getD i []) valueKey).isNum = false →
      (∀ j, j < i → (getField (rest.getD j []) valueKey).isNum = true) →
      pivotLoop rowKey colKey valueKey rest idx m = .error (pivotMsg valueKey (idx + i)) := by
  intro rest
  induction rest with
  | nil => intro i idx m hi; simp at hi
  | cons item rest' ih =>
    intro i idx m hi hbad hgood
    match i with
    | 0 =>
      have hb : (getField item valueKey).isNum = false := by simpa using hbad
      rw [pivotLoop]
      simp only [hb]
      simp [Nat.add_zero]
    | Nat.succ j =>
      have h0 : (getField item valueKey).isNum = true := by
        have := hgood 0 (Nat.succ_pos j)
        simpa using this
      rw [pivotLoop]
      simp only [h0]
      have hj : j < rest'.length := by simpa using Nat.lt_of_succ_lt_succ hi
      have hbad' : (getField (rest'.getD j []) valueKey).isNum = false := by
        simpa using hbad
      have hgood' : ∀ j', j' < j → (getField (rest'.getD j' []) valueKey).isNum = true := by
        intro j' hj'
        have := hgood (j' + 1) (Nat.succ_lt_succ hj')
        simpa using this
      have harith : idx + (j + 1) = (idx + 1) + j := by omega
      have hgoal : idx + Nat.succ j = (idx + 1) + j := by omega
      rw [hgoal]
      exact ih j (idx + 1) _ hj hbad' hgood'

/-- C2: when some record's value at `valueKey` is not a number, `pivot`
raises a type error naming the index of the (first) offending record and
produces no result at all, wherever the record sits. -/
theorem c2_pivot_type_error_no_partial_result
    (data : List Rec) (rowKey colKey valueKey : String) (i : Nat)
    (hi : i < data.length)
    (hbad : (getField (data.getD i []) valueKey).isNum = false)
    (hfirst : ∀ j, j < i → (getField (data.getD j []) valueKey).isNum = true) :
    pivot data rowKey colKey valueKey = .error (pivotMsg valueKey i) := by
  unfold pivot
  rw [pivotLoop_error rowKey colKey valueKey data i 0 [] hi hbad hfirst]
  rw [Nat.zero_add]
  rfl

/-- Witness for C2: the offending record sits at index 1 of a 3-record
collection; the error message names index 1. -/
theorem c2_pivot_type_error_witness :
    pivot
      [[("r", Value.str "A"), ("v", Value.num 1)],
       [("r", Value.str "A"), ("v", Value.str "oops")],
       [("r", Value.str "B"), ("v", Value.num 2)]]
      "r" "c" "v" =
      .error (pivotMsg "v" 1) :=
  c2_pivot_type_error_no_partial_result _ "r" "c" "v" 1 (by decide) (by decide)
    (by decide)

/-! ### First-seen deduplication and association-list lemmas -/

/-- First occurrences of a list's elements, in first-seen order. -/
def dedupKeepFirst {α : Type _} [DecidableEq α] (l : List α) : List α :=
  l.foldl (fun acc x => if x ∈ acc then acc else acc ++ [x]) []

theorem mem_foldl_dedup {α : Type _} [DecidableEq α] :
    ∀ (l acc : List α) (y : α),
      y ∈ l.foldl (fun acc x => if x ∈ acc then acc else acc ++ [x]) acc ↔ y ∈ acc ∨ y ∈ l := by
  intro l
  induction l with
  | nil => intro acc y; simp
  | cons x xs ih =>
    intro acc y
    rw [List.foldl_cons]
    by_cases hx : x ∈ acc
    · rw [if_pos hx, ih]
      simp only [List.mem_cons]
      constructor
      · rintro (h | h)
        · exact Or.inl h
        · exact Or.inr (Or.inr h)
      · rintro (h | h | h)
        · exact Or.inl h
        · exact Or.inl (h ▸ hx)
        · exact Or.inr h
    · rw [if_neg hx, ih]
      simp only [List.mem_append, List.mem_singleton, List.mem_cons]
      tauto

theorem mem_dedupKeepFirst {α : Type _} [DecidableEq α] (l : List α) (y : α) :
    y ∈ dedupKeepFirst l ↔ y ∈ l := by
  unfold dedupKeepFirst
  rw [mem_foldl_dedup]
  simp

theorem nodup_foldl_dedup {α : Type _} [DecidableEq α] :
    ∀ (l acc : List α), acc.Nodup →
      (l.foldl (fun acc x => if x ∈ acc then acc else acc ++ [x]) acc).Nodup := by
  intro l
  induction l with
  | nil => intro acc h; simpa using h
  | cons x xs ih =>
    intro acc h
    rw [List.foldl_cons]
    by_cases hx : x ∈ acc
    · rw [if_pos hx]; exact ih acc h
    · rw [if_neg hx]
      refine ih _ ?_
      rw [List.nodup_append]
      refine ⟨h, List.nodup_singleton x, ?_⟩
      intro a ha hax
      rw [List.mem_singleton] at hax
      exact hx (hax ▸ ha)

theorem nodup_dedupKeepFirst {α : Type _} [DecidableEq α] (l : List α) :
    (dedupKeepFirst l).Nodup :=
  nodup_foldl_dedup l [] List.nodup_nil

theorem dedupKeepFirst_append_single {α : Type _} [DecidableEq α] (xs : List α) (x : α) :
    dedupKeepFirst (xs ++ [x]) =
      if x ∈ xs then dedupKeepFirst xs else dedupKeepFirst xs ++ [x] := by
  unfold dedupKeepFirst
  rw [List.foldl_append, List.foldl_cons, List.foldl_nil]
  by_cases hx : x ∈ xs
  · rw [if_pos, if_pos hx]
    rw [mem_foldl_dedup]
    exact Or.inr hx
  · rw [if_neg, if_neg hx]
    rw [mem_foldl_dedup]
    simp [hx]

theorem mapHas_map_keys (l : List Value) (f : Value → Rec) (k : Value) :
    (mapHas (l.map (fun rv => (rv, f rv))) k = true) ↔ k ∈ l := by
  simp only [mapHas, List.any_eq_true, List.mem_map, decide_eq_true_eq]
  constructor
  · rintro ⟨e, ⟨rv, hrv, rfl⟩, hk⟩
    exact hk ▸ hrv
  · intro h
    exact ⟨(k, f k), ⟨k, h, rfl⟩, rfl⟩

theorem mapGet_map_keys (l : List Value) (f : Value → Rec) (k : Value) (h : k ∈ l) :
    mapGet (l.map (fun rv => (rv, f rv))) k = f k := by
  induction l with
  | nil => simp at h
  | cons x xs ih =>
    simp only [List.map_cons, mapGet]
    by_cases hx : x = k
    · subst hx; rw [if_pos rfl]
    · rw [if_neg hx]
      exact ih ((List.mem_cons.mp h).resolve_left (fun he => hx he.symm))

theorem mapGet_append_fresh (m : VMap) (k : Value) (r : Rec) (h : ∀ e ∈ m, e.1 ≠ k) :
    mapGet (m ++ [(k, r)]) k = r := by
  induction m with
  | nil => simp [mapGet]
  | cons e rest ih =>
    simp only [List.cons_append, mapGet]
    rw [if_neg (h e (List.mem_cons_self e rest))]
    exact ih (fun e' he' => h e' (List.mem_cons_of_mem e he'))

theorem mapSet_fresh (m : VMap) (k : Value) (r : Rec) (h : ∀ e ∈ m, e.1 ≠ k) :
    mapSet m k r = m ++ [(k, r)] := by
  induction m with
  | nil => simp [mapSet]
  | cons e rest ih =>
    simp only [mapSet, List.cons_append]
    rw [if_neg (h e (List.mem_cons_self e rest))]
    rw [ih (fun e' he' => h e' (List.mem_cons_of_mem e he'))]

theorem mapSet_append_fresh (m : VMap) (k : Value) (r r' : Rec) (h : ∀ e ∈ m, e.1 ≠ k) :
    mapSet (m ++ [(k, r)]) k r' = m ++ [(k, r')] := by
  induction m with
  | nil => simp [mapSet]
  | cons e rest ih =>
    simp only [List.cons_append, mapSet]
    rw [if_neg (h e (List.mem_cons_self e rest))]
    exact congrArg (List.cons e) (ih (fun e' he' => h e' (List.mem_cons_of_mem e he')))

theorem mapSet_map_keys_mem (l : List Value) (f : Value → Rec) (k : Value) (r : Rec)
    (hnd : l.Nodup) (h : k ∈ l) :
    mapSet (l.map (fun rv => (rv, f rv))) k r =
      l.map (fun rv => (rv, if rv = k then r else f rv)) := by
  induction l with
  | nil => simp at h
  | cons x xs ih =>
    rcases List.nodup_cons.mp hnd with ⟨hx_notin, hxs⟩
    simp only [List.map_cons, mapSet]
    by_cases hx : x = k
    · subst hx
      rw [if_pos rfl, if_pos rfl]
      congr 1
      refine (List.map_congr_left ?_).symm
      intro rv hrv
      rw [if_neg (fun hcontra : rv = x => hx_notin (hcontra ▸ hrv))]
    · rw [if_neg hx, if_neg hx]
      congr 1
      exact ih hxs ((List.mem_cons.mp h).resolve_left (fun he => hx he.symm))

theorem getField_map_keys (l : List String) (g : String → Value) (k : String) :
    getField (l.map (fun c => (c, g c))) k = if k ∈ l then g k else .undef := by
  induction l with
  | nil => simp [getField]
  | cons c cs ih =>
    simp only [List.map_cons, getField]
    by_cases hc : c = k
    · subst hc
      rw [if_pos rfl, if_pos (List.mem_cons_self c cs)]
    · rw [if_neg hc, ih]
      by_cases hk : k ∈ cs
      · rw [if_pos hk, if_pos (List.mem_cons_of_mem c hk)]
      · rw [if_neg hk, if_neg ?_]
        intro hmem
        rcases List.mem_cons.mp hmem with h | h
        · exact hc h.symm
        · exact hk h

theorem setField_map_keys_mem (l : List String) (g : String → Value) (k : String) (v : Value)
    (hnd : l.Nodup) (h : k ∈ l) :
    setField (l.map (fun c => (c, g c))) k v =
      l.map (fun c => (c, if c = k then v else g c)) := by
  induction l with
  | nil => simp at h
  | cons x xs ih =>
    rcases List.nodup_cons.mp hnd with ⟨hx_notin, hxs⟩
    simp only [List.map_cons, setField]
    by_cases hx : x = k
    · subst hx
      rw [if_pos rfl, if_pos rfl]
      congr 1
      refine (List.map_congr_left ?_).symm
      intro c hc
      rw [if_neg (fun hcontra : c = x => hx_notin (hcontra ▸ hc))]
    · rw [if_neg hx, if_neg hx]
      congr 1
      exact ih hxs ((List.mem_cons.mp h).resolve_left (fun he => hx he.symm))

theorem setField_fresh (r : Rec) (k : String) (v : Value) (h : ∀ e ∈ r, e.1 ≠ k) :
    setField r k v = r ++ [(k, v)] := by
  induction r with
  | nil => simp [setField]
  | cons e rest ih =>
    simp only [setField, List.cons_append]
    rw [if_neg (h e (List.mem_cons_self e rest))]
    rw [ih (fun e' he' => h e' (List.mem_cons_of_mem e he'))]

/-! ### The specification-side description of `pivot` -/

/-- The string form of a record's `colKey` value, used by the code as the
accumulator property key (`row[colVal]` coerces `colVal` with `ToString`). -/
def colKeyOf (colKey : String) (it : Rec) : String := jsToString (getField it colKey)

/-- The sequence of `rowKey` values of a collection, in order. -/
def rowValsOf (rowKey : String) (data : List Rec) : List Value :=
  data.map (fun it => getField it rowKey)

/-- The records of a collection whose `rowKey` value equals `rv`. -/
def rowGroup (rowKey : String) (data : List Rec) (rv : Value) : List Rec :=
  data.filter (fun it => decide (getField it rowKey = rv))

/-- The column strings of a group of records, in order. -/
def colStrings (colKey : String) (grp : List Rec) : List String :=
  grp.map (colKeyOf colKey)

/-- The records of a group whose column string equals `cs`. -/
def colGroup (colKey : String) (grp : List Rec) (cs : String) : List Rec :=
  grp.filter (fun it => decide (colKeyOf colKey it = cs))

/-- The numeric content of a value (0 for non-numbers; irrelevant under the
numeric-values hypothesis). -/
def numOf : Value → Int
  | .num n => n
  | _ => 0

/-- Sum of the `valueKey` values of a group of records. -/
def sumVals (valueKey : String) (grp : List Rec) : Int :=
  grp.foldl (fun s it => s + numOf (getField it valueKey)) 0

/-- The accumulator the specification describes for one row value: the row
field, then one summed field per distinct column string observed for that
row, in first-seen order, with no zero-padding. -/
def specRowAcc (rowKey colKey valueKey : String) (data : List Rec) (rv : Value) : Rec :=
  (rowKey, rv) ::
    (dedupKeepFirst (colStrings colKey (rowGroup rowKey data rv))).map
      (fun cs => (cs, Value.num (sumVals valueKey (colGroup colKey (rowGroup rowKey data rv) cs))))

/-- The result the specification describes for `pivot`: one accumulator per
distinct `rowKey` value, in first-seen order. -/
def specPivot (rowKey colKey valueKey : String) (data : List Rec) : List Rec :=
  (dedupKeepFirst (rowValsOf rowKey data)).map (specRowAcc rowKey colKey valueKey data)

/-- The accumulator map corresponding to `specPivot`, keyed by row value. -/
def specVMap (rowKey colKey valueKey : String) (data : List Rec) : VMap :=
  (dedupKeepFirst (rowValsOf rowKey data)).map
    (fun rv => (rv, specRowAcc rowKey colKey valueKey data rv))

theorem colKeyOf_def (colKey : String) (it : Rec) :
    colKeyOf colKey it = jsToString (getField it colKey) := rfl

theorem rowValsOf_append (rowKey : String) (pre : List Rec) (it : Rec) :
    rowValsOf rowKey (pre ++ [it]) = rowValsOf rowKey pre ++ [getField it rowKey] := by
  simp [rowValsOf]

theorem rowGroup_append (rowKey : String) (pre : List Rec) (it : Rec) (rv : Value) :
    rowGroup rowKey (pre ++ [it]) rv =
      rowGroup rowKey pre rv ++ (if getField it rowKey = rv then [it] else []) := by
  unfold rowGroup
  rw [List.filter_append]
  congr 1
  by_cases h : getField it rowKey = rv
  · simp [h]
  · simp [h]

theorem rowGroup_empty (rowKey : String) (pre : List Rec) (rv : Value)
    (h : rv ∉ rowValsOf rowKey pre) : rowGroup rowKey pre rv = [] := by
  unfold rowGroup
  rw [List.filter_eq_nil_iff]
  intro it hit
  simp only [decide_eq_true_eq]
  intro he
  exact h (List.mem_map.mpr ⟨it, hit, he⟩)

theorem colStrings_append (colKey : String) (g : List Rec) (it : Rec) :
    colStrings colKey (g ++ [it]) = colStrings colKey g ++ [colKeyOf colKey it] := by
  simp [colStrings]

theorem colGroup_append (colKey : String) (g : List Rec) (it : Rec) (cs : String) :
    colGroup colKey (g ++ [it]) cs =
      colGroup colKey g cs ++ (if colKeyOf colKey it = cs then [it] else []) := by
  unfold colGroup
  rw [List.filter_append]
  congr 1
  by_cases h : colKeyOf colKey it = cs
  · simp [h]
  · simp [h]

theorem colGroup_empty (colKey : String) (g : List Rec) (cs : String)
    (h : cs ∉ colStrings colKey g) : colGroup colKey g cs = [] := by
  unfold colGroup
  rw [List.filter_eq_nil_iff]
  intro it hit
  simp only [decide_eq_true_eq]
  intro he
  exact h (List.mem_map.mpr ⟨it, hit, he⟩)

theorem sumVals_append (valueKey : String) (g : List Rec) (it : Rec) :
    sumVals valueKey (g ++ [it]) = sumVals valueKey g + numOf (getField it valueKey) := by
  simp [sumVals, List.foldl_append]

theorem specRowAcc_append_other (rowKey colKey valueKey : String) (pre : List Rec)
    (it : Rec) (rv : Value) (h : getField it rowKey ≠ rv) :
    specRowAcc rowKey colKey valueKey (pre ++ [it]) rv =
      specRowAcc rowKey colKey valueKey pre rv := by
  unfold specRowAcc
  rw [rowGroup_append, if_neg h, List.append_nil]

theorem specRowAcc_not_mem (rowKey colKey valueKey : String) (pre : List Rec) (rv : Value)
    (h : rv ∉ rowValsOf rowKey pre) :
    specRowAcc rowKey colKey valueKey pre rv = [(rowKey, rv)] := by
  unfold specRowAcc
  rw [rowGroup_empty rowKey pre rv h]
  simp [colStrings, dedupKeepFirst]

theorem jsOr_num_zero (S : Int) : jsOr (.num S) (.num 0) = .num S := by
  by_cases h : S = 0
  · subst h; simp [jsOr]
  · simp [jsOr, Value.truthy, h]

/-- Updating the specification accumulator for `item`'s own row: reading the
column field, defaulting with `|| 0`, adding the value and writing the field
back produces exactly the accumulator the specification describes for the
extended collection. -/
theorem specRowAcc_step (rowKey colKey valueKey : String) (pre : List Rec) (item : Rec)
    (n : Int) (hck : jsToString (getField item colKey) ≠ rowKey)
    (hn : getField item valueKey = .num n) :
    setField (specRowAcc rowKey colKey valueKey pre (getField item rowKey))
        (jsToString (getField item colKey))
        (jsAdd
          (jsOr
            (getField (specRowAcc rowKey colKey valueKey pre (getField item rowKey))
              (jsToString (getField item colKey)))
            (.num 0))
          (.num n)) =
      specRowAcc rowKey colKey valueKey (pre ++ [item]) (getField item rowKey) := by
  have hgrp : rowGroup rowKey (pre ++ [item]) (getField item rowKey) =
      rowGroup rowKey pre (getField item rowKey) ++ [item] := by
    rw [rowGroup_append, if_pos rfl]
  have hgetrow : getField (specRowAcc rowKey colKey valueKey pre (getField item rowKey))
      (jsToString (getField item colKey)) =
      (if jsToString (getField item colKey) ∈
          colStrings colKey (rowGroup rowKey pre (getField item rowKey)) then
        Value.num (sumVals valueKey
          (colGroup colKey (rowGroup rowKey pre (getField item rowKey))
            (jsToString (getField item colKey))))
      else Value.undef) := by
    unfold specRowAcc
    rw [getField]
    rw [if_neg (fun h => hck h.symm)]
    rw [getField_map_keys]
    by_cases hmem : jsToString (getField item colKey) ∈
        colStrings colKey (rowGroup rowKey pre (getField item rowKey))
    · rw [if_pos ((mem_dedupKeepFirst _ _).mpr hmem), if_pos hmem]
    · rw [if_neg (fun h => hmem ((mem_dedupKeepFirst _ _).mp h)), if_neg hmem]
  by_cases hcs : jsToString (getField item colKey) ∈
      colStrings colKey (rowGroup rowKey pre (getField item rowKey))
  · -- the column already exists for this row: the sum is incremented in place
    rw [hgetrow, if_pos hcs, jsOr_num_zero]
    have hadd : jsAdd
        (Value.num (sumVals valueKey
          (colGroup colKey (rowGroup rowKey pre (getField item rowKey))
            (jsToString (getField item colKey)))))
        (.num n) =
        Value.num (sumVals valueKey
          (colGroup colKey (rowGroup rowKey pre (getField item rowKey))
            (jsToString (getField item colKey))) + n) := rfl
    rw [hadd]
    unfold specRowAcc
    rw [setField]
    rw [if_neg (fun h => hck h.symm)]
    rw [hgrp, colStrings_append, colKeyOf_def, dedupKeepFirst_append_single, if_pos hcs]
    rw [setField_map_keys_mem _ _ _ _ (nodup_dedupKeepFirst _)
      ((mem_dedupKeepFirst _ _).mpr hcs)]
    congr 1
    refine (List.map_congr_left ?_).symm
    intro cs hcsmem
    rw [colGroup_append, colKeyOf_def]
    by_cases he : cs = jsToString (getField item colKey)
    · rw [if_pos he, if_pos (by rw [he]), sumVals_append, hn]
      simp [numOf, he]
    · rw [if_neg he, if_neg (fun h => he h.symm), List.append_nil]
  · -- a fresh column for this row: a new summed field is appended
    rw [hgetrow, if_neg hcs]
    have hor : jsOr Value.undef (Value.num 0) = Value.num 0 := rfl
    have hadd : jsAdd (Value.num 0) (Value.num n) = Value.num (0 + n) := rfl
    rw [hor, hadd, Int.zero_add]
    unfold specRowAcc
    rw [setField]
    rw [if_neg (fun h => hck h.symm)]
    rw [setField_fresh]
    · rw [hgrp, colStrings_append, colKeyOf_def, dedupKeepFirst_append_single, if_neg hcs]
      rw [List.map_append]
      have h1 : List.map
          (fun cs => (cs, Value.num (sumVals valueKey
            (colGroup colKey (rowGroup rowKey pre (getField item rowKey) ++ [item]) cs))))
          (dedupKeepFirst (colStrings colKey (rowGroup rowKey pre (getField item rowKey)))) =
          List.map
          (fun cs => (cs, Value.num (sumVals valueKey
            (colGroup colKey (rowGroup rowKey pre (getField item rowKey)) cs))))
          (dedupKeepFirst (colStrings colKey (rowGroup rowKey pre (getField item rowKey)))) := by
        refine List.map_congr_left ?_
        intro cs hcsmem
        have hne : cs ≠ jsToString (getField item colKey) := by
          intro h
          exact hcs (h ▸ ((mem_dedupKeepFirst _ _).mp hcsmem))
        rw [colGroup_append, colKeyOf_def, if_neg (fun h => hne h.symm), List.append_nil]
      have hsum : sumVals valueKey
          (colGroup colKey (rowGroup rowKey pre (getField item rowKey) ++ [item])
            (jsToString (getField item colKey))) = n := by
        rw [colGroup_append, colKeyOf_def, if_pos rfl]
        rw [colGroup_empty _ _ _ hcs, List.nil_append]
        rw [show sumVals valueKey [item] = 0 + numOf (getField item valueKey) from rfl]
        rw [hn]
        simp [numOf]
      have h2 : List.map
          (fun cs => (cs, Value.num (sumVals valueKey
            (colGroup colKey (rowGroup rowKey pre (getField item rowKey) ++ [item]) cs))))
          [jsToString (getField item colKey)] =
          [(jsToString (getField item colKey), Value.num n)] := by
        rw [List.map_singleton, hsum]
      rw [h1, h2]
    · intro e he
      rcases List.mem_map.mp he with ⟨cs, hcsmem, rfl⟩
      intro h
      exact hcs (h ▸ ((mem_dedupKeepFirst _ _).mp hcsmem))

/-- One unfolding of the `pivot` loop on a record whose aggregated value is
the number `n`. -/
theorem pivotLoop_cons (rowKey colKey valueKey : String) (item : Rec) (rest : List Rec)
    (idx : Nat) (m : VMap) (n : Int) (hn : getField item valueKey = .num n) :
    pivotLoop rowKey colKey valueKey (item :: rest) idx m =
      (fun m1 =>
        pivotLoop rowKey colKey valueKey rest (idx + 1)
          (mapSet m1 (getField item rowKey)
            (setField (mapGet m1 (getField item rowKey)) (jsToString (getField item colKey))
              (jsAdd
                (jsOr
                  (getField (mapGet m1 (getField item rowKey))
                    (jsToString (getField item colKey)))
                  (.num 0))
                (.num n)))))
        (if mapHas m (getField item rowKey) then m
         else mapSet m (getField item rowKey) [(rowKey, getField item rowKey)]) := by
  rw [pivotLoop, hn]
  rfl

/-- The `pivot` loop, started on the specification map of an already
processed prefix, computes the specification map of the whole collection. -/
theorem pivotLoop_spec (rowKey colKey valueKey : String) :
    ∀ (rest pre : List Rec) (idx : Nat),
      (∀ it ∈ pre ++ rest, jsToString (getField it colKey) ≠ rowKey) →
      (∀ it ∈ rest, (getField it valueKey).isNum = true) →
      pivotLoop rowKey colKey valueKey rest idx (specVMap rowKey colKey valueKey pre) =
        .ok (specVMap rowKey colKey valueKey (pre ++ rest)) := by
  intro rest
  induction rest with
  | nil =>
    intro pre idx _ _
    simp [pivotLoop]
  | cons item rest' ih =>
    intro pre idx hcol hnum
    have hv : (getField item valueKey).isNum = true := hnum item (List.mem_cons_self _ _)
    obtain ⟨n, hn⟩ : ∃ n, getField item valueKey = .num n := by
      cases hval : getField item valueKey with
      | num n => exact ⟨n, rfl⟩
      | str s => rw [hval] at hv; simp [Value.isNum] at hv
      | undef => rw [hval] at hv; simp [Value.isNum] at hv
    have hckr : jsToString (getField item colKey) ≠ rowKey :=
      hcol item (by simp)
    rw [pivotLoop_cons rowKey colKey valueKey item rest' idx _ n hn]
    simp only []
    have happ : (pre ++ [item]) ++ rest' = pre ++ item :: rest' := by simp
    by_cases hrv : getField item rowKey ∈ rowValsOf rowKey pre
    · -- the row already exists in the map
      have hhas : mapHas (specVMap rowKey colKey valueKey pre) (getField item rowKey) = true := by
        unfold specVMap
        exact (mapHas_map_keys _ _ _).mpr ((mem_dedupKeepFirst _ _).mpr hrv)
      rw [if_pos hhas]
      have hrow : mapGet (specVMap rowKey colKey valueKey pre) (getField item rowKey) =
          specRowAcc rowKey colKey valueKey pre (getField item rowKey) := by
        unfold specVMap
        exact mapGet_map_keys _ _ _ ((mem_dedupKeepFirst _ _).mpr hrv)
      rw [hrow]
      rw [specRowAcc_step rowKey colKey valueKey pre item n hckr hn]
      have hmap : mapSet (specVMap rowKey colKey valueKey pre) (getField item rowKey)
          (specRowAcc rowKey colKey valueKey (pre ++ [item]) (getField item rowKey)) =
          specVMap rowKey colKey valueKey (pre ++ [item]) := by
        unfold specVMap
        rw [mapSet_map_keys_mem _ _ _ _ (nodup_dedupKeepFirst _)
          ((mem_dedupKeepFirst _ _).mpr hrv)]
        rw [rowValsOf_append, dedupKeepFirst_append_single, if_pos hrv]
        refine List.map_congr_left ?_
        intro rv' hrv'
        by_cases he : rv' = getField item rowKey
        · rw [if_pos he, he]
        · rw [if_neg he,
            specRowAcc_append_other rowKey colKey valueKey pre item rv' (fun h => he h.symm)]
      rw [hmap, ← happ]
      exact ih (pre ++ [item]) (idx + 1) (happ ▸ hcol)
        (fun it hit => hnum it (List.mem_cons_of_mem item hit))
    · -- a fresh row value: a new accumulator is created, then updated
      have hfresh : ∀ e ∈ specVMap rowKey colKey valueKey pre, e.1 ≠ getField item rowKey := by
        intro e he
        rcases List.mem_map.mp he with ⟨rv', hrv', rfl⟩
        intro h
        exact hrv (h ▸ ((mem_dedupKeepFirst _ _).mp hrv'))
      have hhas : mapHas (specVMap rowKey colKey valueKey pre) (getField item rowKey) = false := by
        rw [Bool.eq_false_iff]
        intro h
        unfold specVMap at h
        exact hrv ((mem_dedupKeepFirst _ _).mp ((mapHas_map_keys _ _ _).mp h))
      rw [if_neg (by rw [hhas]; exact Bool.false_ne_true)]
      rw [mapSet_fresh _ _ _ hfresh]
      rw [mapGet_append_fresh _ _ _ hfresh]
      rw [show ([(rowKey, getField item rowKey)] : Rec) =
        specRowAcc rowKey colKey valueKey pre (getField item rowKey) from
        (specRowAcc_not_mem rowKey colKey valueKey pre _ hrv).symm]
      rw [specRowAcc_step rowKey colKey valueKey pre item n hckr hn]
      rw [mapSet_append_fresh _ _ _ _ hfresh]
      have hmap : specVMap rowKey colKey valueKey pre ++
          [(getField item rowKey,
            specRowAcc rowKey colKey valueKey (pre ++ [item]) (getField item rowKey))] =
          specVMap rowKey colKey valueKey (pre ++ [item]) := by
        unfold specVMap
        rw [rowValsOf_append, dedupKeepFirst_append_single, if_neg hrv]
        rw [List.map_append, List.map_singleton]
        congr 1
        refine (List.map_congr_left ?_).symm
        intro rv' hrv'
        have hne : getField item rowKey ≠ rv' := by
          intro h
          exact hrv (h ▸ ((mem_dedupKeepFirst _ _).mp hrv'))
        rw [specRowAcc_append_other rowKey colKey valueKey pre item rv' hne]
      rw [hmap, ← happ]
      exact ih (pre ++ [item]) (idx + 1) (happ ▸ hcol)
        (fun it hit => hnum it (List.mem_cons_of_mem item hit))

/-- `pivot` computes exactly the rows-and-summed-columns result the
specification describes, provided no record's `colKey` value has a string
form equal to `rowKey` (otherwise the `row[colVal]` write clobbers the row
field) and every record's `valueKey` value is numeric. -/
theorem pivot_eq_specPivot (data : List Rec) (rowKey colKey valueKey : String)
    (hcol : ∀ it ∈ data, jsToString (getField it colKey) ≠ rowKey)
    (hnum : ∀ it ∈ data, (getField it valueKey).isNum = true) :
    pivot data rowKey colKey valueKey = .ok (specPivot rowKey colKey valueKey data) := by
  unfold pivot
  have hstart : specVMap rowKey colKey valueKey [] = [] := rfl
  have := pivotLoop_spec rowKey colKey valueKey data [] 0
    (by simpa using hcol) hnum
  rw [hstart] at this
  rw [List.nil_append] at this
  rw [this]
  unfold specVMap specPivot
  simp [Except.map, List.map_map]

/-- C1 counterexample: the general sentence fails when a record's `colKey`
value has the string form `"r"` equal to the `rowKey` name: the `row[colVal]`
write lands on the row field itself, `|| 0` keeps the truthy row string, and
`+` concatenates, so the unique accumulator is `{r: "A1"}` and does not
contain the row field `r: "A"` the claim requires. -/
theorem c1_pivot_counterexample :
    pivot [[("r", Value.str "A"), ("c", Value.str "r"), ("v", Value.num 1)]] "r" "c" "v" =
      .ok [[("r", Value.str "A1")]]
    ∧ getField [("r", Value.str "A1")] "r" ≠ Value.str "A" :=
  ⟨by rfl, by decide⟩

/-- C1 (amended): the worked example pivots exactly as stated, and in
general — provided no `colKey` value's string form collides with the
`rowKey` name — `pivot` returns one accumulator per distinct `rowKey` value
in first-seen order, each holding the row field plus one summed field per
distinct string form of the `colKey` values observed for that row (duplicate
row/column pairs accumulate by addition), with no zero-padding. -/
theorem c1_pivot_example_and_general :
    (pivot
      [[("category", Value.str "Fruit"), ("item", Value.str "Apple"), ("quantity", Value.num 10)],
       [("category", Value.str "Fruit"), ("item", Value.str "Banana"), ("quantity", Value.num 5)],
       [("category", Value.str "Vegetable"), ("item", Value.str "Carrot"), ("quantity", Value.num 7)],
       [("category", Value.str "Fruit"), ("item", Value.str "Apple"), ("quantity", Value.num 3)]]
      "category" "item" "quantity" =
      .ok [[("category", Value.str "Fruit"), ("Apple", Value.num 13), ("Banana", Value.num 5)],
           [("category", Value.str "Vegetable"), ("Carrot", Value.num 7)]])
    ∧ ∀ (data : List Rec) (rowKey colKey valueKey : String),
        (∀ it ∈ data, jsToString (getField it colKey) ≠ rowKey) →
        (∀ it ∈ data, (getField it valueKey).isNum = true) →
        pivot data rowKey colKey valueKey = .ok (specPivot rowKey colKey valueKey data) := by
  constructor
  · rfl
  · intro data rowKey colKey valueKey hcol hnum
    exact pivot_eq_specPivot data rowKey colKey valueKey hcol hnum

/-- Witness for C1 at the worked example: its hypotheses hold concretely and
the general theorem applies, producing the specification-side result. -/
theorem c1_pivot_example_and_general_witness :
    pivot
      [[("category", Value.str "Fruit"), ("item", Value.str "Apple"), ("quantity", Value.num 10)],
       [("category", Value.str "Fruit"), ("item", Value.str "Banana"), ("quantity", Value.num 5)],
       [("category", Value.str "Vegetable"), ("item", Value.str "Carrot"), ("quantity", Value.num 7)],
       [("category", Value.str "Fruit"), ("item", Value.str "Apple"), ("quantity", Value.num 3)]]
      "category" "item" "quantity" =
      .ok (specPivot "category" "item" "quantity"
        [[("category", Value.str "Fruit"), ("item", Value.str "Apple"), ("quantity", Value.num 10)],
         [("category", Value.str "Fruit"), ("item", Value.str "Banana"), ("quantity", Value.num 5)],
         [("category", Value.str "Vegetable"), ("item", Value.str "Carrot"), ("quantity", Value.num 7)],
         [("category", Value.str "Fruit"), ("item", Value.str "Apple"), ("quantity", Value.num 3)]]) :=
  c1_pivot_example_and_general.2 _ "category" "item" "quantity"
    (by decide) (by decide)

/-! ### String-to-number coercion (integer fragment) -/

/-- Decimal digit test (code points 48-57). -/
def isDigitChar (ch : Char) : Bool := decide (48 ≤ ch.toNat) && decide (ch.toNat ≤ 57)

/-- Whitespace as trimmed by `trim` and `ToNumber` (ASCII fragment). -/
def isWsChar (ch : Char) : Bool := ch = ' ' || ch = '\t' || ch = '\n' || ch = '\r'

/-- Trim whitespace from both ends of a character list. -/
def jsTrimChars (l : List Char) : List Char :=
  ((l.dropWhile isWsChar).reverse.dropWhile isWsChar).reverse

/-- `String.prototype.trim` (ASCII whitespace fragment). -/
def jsTrim (s : String) : String := String.mk (jsTrimChars s.data)

/-- Numeric value of a digit character. -/
def digitVal (ch : Char) : Nat := ch.toNat - 48

/-- Value of a decimal digit string, most significant first. -/
def digitsVal (l : List Char) : Nat := l.foldl (fun acc ch => acc * 10 + digitVal ch) 0

/-- JS `Number(s)` / `ToNumber` on strings, on the integer fragment: the
string is trimmed; the empty (or whitespace-only) string converts to `0`; an
optional sign followed by decimal digits converts to the signed integer;
anything else (including fractional, hexadecimal, exponent and `Infinity`
forms, which are outside the integer value model) is `none`, standing for
`NaN`. -/
def jsToNumber (s : String) : Option Int :=
  let t := jsTrimChars s.data
  if t = [] then some 0
  else if t.headD ' ' = '-' then
    (if t.tail ≠ [] ∧ t.tail.all isDigitChar then some (-(digitsVal t.tail : Int)) else none)
  else if t.headD ' ' = '+' then
    (if t.tail ≠ [] ∧ t.tail.all isDigitChar then some ((digitsVal t.tail : Int)) else none)
  else if t.all isDigitChar then some ((digitsVal t : Int)) else none

/-! ### Full `ToNumber` on strings, for the relational comparison

The comparator of the multi-key `sort` applies `<` and `>` directly, so a
number meeting a text value goes through the full `ToNumber` string grammar
(`StrNumericLiteral`): optional sign, decimal digits with optional fraction
and exponent, a leading-dot form, `Infinity`, and the `0x`/`0o`/`0b`
non-decimal integer prefixes.  Finite results are kept exactly as
`mant * 10 ^ exp10` (exact arithmetic: rounding to binary64 and its
overflow to the infinities are outside the model, matching the exact
integer fragment used for `Value.num`). -/

/-- A `ToNumber` result that is not `NaN`: a finite value `mant * 10 ^
exp10`, or one of the two infinities produced by the `Infinity` literal.
`none` at the use sites stands for `NaN`. -/
inductive JsNumber where
  | fin (mant exp10 : Int)
  | posInf
  | negInf
deriving DecidableEq, Repr

/-- `m1 * 10 ^ e1 < m2 * 10 ^ e2`, decided over the integers by scaling
both sides with the smaller power of ten (`decLtB_iff` below identifies it
with the rational order). -/
def decLtB (m1 e1 m2 e2 : Int) : Bool :=
  decide (m1 * 10 ^ (e1 - min e1 e2).toNat < m2 * 10 ^ (e2 - min e1 e2).toNat)

/-- The numeric order on `ToNumber` results: finite values by value,
`-Infinity` below and `+Infinity` above every finite value. -/
def JsNumber.lt : JsNumber → JsNumber → Bool
  | .fin m1 e1, .fin m2 e2 => decLtB m1 e1 m2 e2
  | .fin _ _, .posInf => true
  | .negInf, .fin _ _ => true
  | .negInf, .posInf => true
  | _, _ => false

/-- Negation of a `ToNumber` result, applied for a leading `-` sign. -/
def JsNumber.neg : JsNumber → JsNumber
  | .fin m e => .fin (-m) e
  | .posInf => .negInf
  | .negInf => .posInf

/-- Hexadecimal digit test (`0-9`, `A-F`, `a-f`). -/
def isHexDigitChar (ch : Char) : Bool :=
  isDigitChar ch || (decide (65 ≤ ch.toNat) && decide (ch.toNat ≤ 70))
    || (decide (97 ≤ ch.toNat) && decide (ch.toNat ≤ 102))

/-- Octal digit test (`0-7`). -/
def isOctDigitChar (ch : Char) : Bool := decide (48 ≤ ch.toNat) && decide (ch.toNat ≤ 55)

/-- Binary digit test (`0`/`1`). -/
def isBinDigitChar (ch : Char) : Bool := ch = '0' || ch = '1'

/-- Numeric value of a hexadecimal digit character. -/
def hexDigitVal (ch : Char) : Nat :=
  if ch.toNat ≤ 57 then ch.toNat - 48
  else if ch.toNat ≤ 70 then ch.toNat - 55
  else ch.toNat - 87

/-- Value of a digit string in base `b`, most significant first. -/
def baseVal (b : Nat) (l : List Char) : Nat :=
  l.foldl (fun acc ch => acc * b + hexDigitVal ch) 0

/-- The `ExponentPart` closing a decimal literal: nothing left gives
exponent `0`; `e`/`E` followed by an optionally signed nonempty digit run
gives its signed value; anything else makes the literal invalid. -/
def expTail : List Char → Option Int
  | [] => some 0
  | c :: rest =>
    if c = 'e' ∨ c = 'E' then
      match rest with
      | '+' :: ds => if ds ≠ [] ∧ ds.all isDigitChar then some ((digitsVal ds : Int)) else none
      | '-' :: ds => if ds ≠ [] ∧ ds.all isDigitChar then some (-(digitsVal ds : Int)) else none
      | ds => if ds ≠ [] ∧ ds.all isDigitChar then some ((digitsVal ds : Int)) else none
    else none

/-- `StrUnsignedDecimalLiteral`: `Infinity`, or decimal digits with an
optional fraction and exponent (`1`, `1.5`, `1.`, `.5`, `1e3`, `1.2E-4`);
at least one digit must be present and nothing may be left over. -/
def strUnsignedDecimal (l : List Char) : Option JsNumber :=
  if l = "Infinity".data then some JsNumber.posInf
  else
    let d1 := l.takeWhile isDigitChar
    let r1 := l.dropWhile isDigitChar
    match r1 with
    | '.' :: r2 =>
      let d2 := r2.takeWhile isDigitChar
      let r3 := r2.dropWhile isDigitChar
      if d1 = [] ∧ d2 = [] then none
      else
        match expTail r3 with
        | some e => some (JsNumber.fin (digitsVal (d1 ++ d2)) (e - d2.length))
        | none => none
    | _ =>
      if d1 = [] then none
      else
        match expTail r1 with
        | some e => some (JsNumber.fin (digitsVal d1) e)
        | none => none

/-- `StrNumericLiteral` on a trimmed character list: empty converts to `0`;
a sign applies to an unsigned decimal literal (signs are not allowed on the
non-decimal forms); `0x`/`0o`/`0b` prefixes introduce hexadecimal, octal
and binary integers; anything else is an unsigned decimal literal. -/
def toNumberChars (l : List Char) : Option JsNumber :=
  match l with
  | [] => some (JsNumber.fin 0 0)
  | '+' :: rest => strUnsignedDecimal rest
  | '-' :: rest => (strUnsignedDecimal rest).map JsNumber.neg
  | '0' :: c :: rest =>
    if c = 'x' ∨ c = 'X' then
      (if rest ≠ [] ∧ rest.all isHexDigitChar then some (JsNumber.fin (baseVal 16 rest) 0)
       else none)
    else if c = 'o' ∨ c = 'O' then
      (if rest ≠ [] ∧ rest.all isOctDigitChar then some (JsNumber.fin (baseVal 8 rest) 0)
       else none)
    else if c = 'b' ∨ c = 'B' then
      (if rest ≠ [] ∧ rest.all isBinDigitChar then some (JsNumber.fin (baseVal 2 rest) 0)
       else none)
    else strUnsignedDecimal l
  | _ => strUnsignedDecimal l

/-- JS `ToNumber` on a string: trim, then the `StrNumericLiteral` grammar;
`none` stands for `NaN`. -/
def toNumber (s : String) : Option JsNumber := toNumberChars (jsTrimChars s.data)

/-- `ToNumber` of a primitive value for the relational comparison; `none`
is `NaN` (`undefined` converts to `NaN`). -/
def toNumberV : Value → Option JsNumber
  | .num n => some (JsNumber.fin n 0)
  | .str s => toNumber s
  | .undef => none

/-! ### The multi-key `sort` -/

/-- Lexicographic comparison of character lists by code point (the JS
code-unit comparison, which agrees on the basic plane). -/
def charListLt : List Char → List Char → Bool
  | [], [] => false
  | [], _ :: _ => true
  | _ :: _, [] => false
  | a :: as, b :: bs =>
    if a.toNat < b.toNat then true
    else if b.toNat < a.toNat then false
    else charListLt as bs

/-- JS `<` on two strings: lexicographic. -/
def jsStrLt (x y : String) : Bool := charListLt x.data y.data

/-- JS `a < b` (abstract relational comparison) on primitive values: two
strings compare lexicographically; otherwise both sides are converted with
`ToNumber` and compared numerically, any `NaN` making the comparison false. -/
def jsLtV (a b : Value) : Bool :=
  match a, b with
  | .str x, .str y => jsStrLt x y
  | _, _ =>
    match toNumberV a, toNumberV b with
    | some x, some y => JsNumber.lt x y
    | _, _ => false

/-- The comparator of `sort` (lines 877-887 of `src/dev.js`): walk the keys;
`a[key] < b[key]` decides down (up for `"desc"`), `a[key] > b[key]` — which
is `b[key] < a[key]` — decides up; ties fall through to the next key; all
keys tied compares 0. -/
def recCompare (keys : List String) (order : String) (a b : Rec) : Int :=
  match keys with
  | [] => 0
  | k :: ks =>
    if jsLtV (getField a k) (getField b k) then (if order = "asc" then -1 else 1)
    else if jsLtV (getField b k) (getField a k) then (if order = "asc" then 1 else -1)
    else recCompare ks order a b

/-- Stable insertion of `x` after every already-placed element it does not
strictly precede. -/
def insertBefore (cmp : Rec → Rec → Int) (x : Rec) : List Rec → List Rec
  | [] => [x]
  | y :: ys => if cmp x y < 0 then x :: y :: ys else y :: insertBefore cmp x ys

/-- A stable comparison sort, processing the input left to right.
`Array.prototype.sort` is required by ECMAScript to sort stably for a
consistent comparator, and every stable sort agrees with this one there; for
an inconsistent comparator ECMAScript leaves the order
implementation-defined, and this model fixes one conforming behaviour. -/
def stableSortBy (cmp : Rec → Rec → Int) (l : List Rec) : List Rec :=
  l.foldl (fun acc x => insertBefore cmp x acc) []

/-- `sort(data, keys, order)` from `src/dev.js` (lines 859-891): validates
the order, then returns a new sorted array.  The string-or-array-of-strings
normalisation of `keys` is discharged by the `List String` type. -/
def sort (data : List Rec) (keys : List String) (order : String) :
    Except String (List Rec) :=
  if order ≠ "asc" ∧ order ≠ "desc" then
    .error "sort: order must be \x27asc\x27 or \x27desc\x27."
  else .ok (stableSortBy (recCompare keys order) data)

/-- The comparison the specification's sentence claims for mixed-type
values: lexicographic comparison of the two values' text representations. -/
def specLexCompare (order : String) (a b : Value) : Int :=
  if jsStrLt (jsToString a) (jsToString b) then (if order = "asc" then -1 else 1)
  else if jsStrLt (jsToString b) (jsToString a) then (if order = "asc" then 1 else -1)
  else 0

/-- Spot checks of the `ToNumber` grammar against the JS behaviour of
`Number(...)` on the same strings. -/
theorem toNumber_grammar_examples :
    toNumber "" = some (JsNumber.fin 0 0)
    ∧ toNumber " 12 " = some (JsNumber.fin 12 0)
    ∧ toNumber "3.5" = some (JsNumber.fin 35 (-1))
    ∧ toNumber ".5" = some (JsNumber.fin 5 (-1))
    ∧ toNumber "1." = some (JsNumber.fin 1 0)
    ∧ toNumber "1e3" = some (JsNumber.fin 1 3)
    ∧ toNumber "-3.5e-1" = some (JsNumber.fin (-35) (-2))
    ∧ toNumber "Infinity" = some JsNumber.posInf
    ∧ toNumber "-Infinity" = some JsNumber.negInf
    ∧ toNumber "0x1A" = some (JsNumber.fin 26 0)
    ∧ toNumber "0o17" = some (JsNumber.fin 15 0)
    ∧ toNumber "0b101" = some (JsNumber.fin 5 0)
    ∧ toNumber "apple" = none
    ∧ toNumber "infinity" = none
    ∧ toNumber "1e" = none
    ∧ toNumber "1 2" = none
    ∧ toNumber "+" = none
    ∧ toNumber "." = none
    ∧ toNumber "12.34.5" = none
    ∧ toNumber "-0x1" = none
    ∧ toNumber "1_0" = none := by
  decide

theorem decLtB_iff (m1 e1 m2 e2 : Int) :
    decLtB m1 e1 m2 e2 = true ↔ (m1 : Rat) * 10 ^ e1 < (m2 : Rat) * 10 ^ e2 := by
  have hten : (10 : Rat) ≠ 0 := by norm_num
  have hcast : ∀ (m e : Int), min e1 e2 ≤ e →
      ((m * 10 ^ (e - min e1 e2).toNat : Int) : Rat) =
        (m : Rat) * 10 ^ e / 10 ^ (min e1 e2) := by
    intro m e he
    push_cast
    rw [← zpow_natCast (10 : Rat) (e - min e1 e2).toNat,
      Int.toNat_of_nonneg (by omega : (0:ℤ) ≤ e - min e1 e2),
      zpow_sub₀ hten, mul_div_assoc]
  unfold decLtB
  rw [decide_eq_true_eq]
  have hint : (m1 * 10 ^ (e1 - min e1 e2).toNat < m2 * 10 ^ (e2 - min e1 e2).toNat) ↔
      ((m1 * 10 ^ (e1 - min e1 e2).toNat : Int) : Rat) <
        ((m2 * 10 ^ (e2 - min e1 e2).toNat : Int) : Rat) := by
    exact_mod_cast Iff.rfl
  rw [hint, hcast m1 e1 (min_le_left _ _), hcast m2 e2 (min_le_right _ _)]
  exact div_lt_div_iff_of_pos_right (zpow_pos (by norm_num) _)

theorem decLtB_irrefl (m e : Int) : decLtB m e m e = false := by
  rw [← Bool.not_eq_true, decLtB_iff]
  exact lt_irrefl _

theorem decLtB_asymm (m1 e1 m2 e2 : Int) (h : decLtB m1 e1 m2 e2 = true) :
    decLtB m2 e2 m1 e1 = false := by
  rw [decLtB_iff] at h
  rw [← Bool.not_eq_true, decLtB_iff]
  exact not_lt.mpr (le_of_lt h)

theorem JsNumber.lt_irrefl (x : JsNumber) : JsNumber.lt x x = false := by
  cases x with
  | fin m e => exact decLtB_irrefl m e
  | posInf => rfl
  | negInf => rfl

theorem JsNumber.lt_asymm (x y : JsNumber) (h : JsNumber.lt x y = true) :
    JsNumber.lt y x = false := by
  cases x with
  | fin m1 e1 =>
    cases y with
    | fin m2 e2 => exact decLtB_asymm m1 e1 m2 e2 h
    | posInf => rfl
    | negInf => simp [JsNumber.lt] at h
  | posInf => cases y <;> simp [JsNumber.lt] at h
  | negInf =>
    cases y with
    | fin m2 e2 => rfl
    | posInf => rfl
    | negInf => simp [JsNumber.lt] at h

/-- C4 counterexample: comparing the text `"10"` with the number `5`, the
code coerces `"10"` to the number 10 and orders `5` first, while the claimed
lexicographic fallback on `"10"`/`"5"` orders `"10"` first; the comparator
and the resulting sort both disagree with the claim. -/
theorem c4_sort_counterexample :
    recCompare ["k"] "asc" [("k", Value.str "10")] [("k", Value.num 5)] = 1
    ∧ specLexCompare "asc" (Value.str "10") (Value.num 5) = -1
    ∧ sort [[("k", Value.str "10")], [("k", Value.num 5)]] ["k"] "asc" =
        .ok [[("k", Value.num 5)], [("k", Value.str "10")]] :=
  ⟨by rfl, by rfl, by rfl⟩

/-- C4 (amended): when a number meets a text value on a sort key, the text
is coerced with the full `ToNumber` string grammar: a text with a finite
numeric interpretation compares numerically by its exact value (so `"3.5"`
sits strictly between 3 and 4), an `Infinity` form compares as the
corresponding infinity, and a text with no numeric interpretation is `NaN`,
unordered against every number, so the pair ties on that key and the
comparison falls through to the next key — there is never a lexicographic
fallback to text representations. -/
theorem c4_sort_mixed_type_comparison (n : Int) (s : String) (k : String) :
    (∀ m e, toNumber s = some (JsNumber.fin m e) →
      recCompare [k] "asc" [(k, Value.num n)] [(k, Value.str s)] =
        (if (n : Rat) < (m : Rat) * 10 ^ e then -1
         else if (m : Rat) * 10 ^ e < (n : Rat) then 1 else 0))
    ∧ (toNumber s = some JsNumber.posInf →
      recCompare [k] "asc" [(k, Value.num n)] [(k, Value.str s)] = -1)
    ∧ (toNumber s = some JsNumber.negInf →
      recCompare [k] "asc" [(k, Value.num n)] [(k, Value.str s)] = 1)
    ∧ (toNumber s = none →
      recCompare [k] "asc" [(k, Value.num n)] [(k, Value.str s)] = 0
      ∧ recCompare [k] "asc" [(k, Value.str s)] [(k, Value.num n)] = 0) := by
  have hga : getField [(k, Value.num n)] k = Value.num n := by simp [getField]
  have hgb : getField [(k, Value.str s)] k = Value.str s := by simp [getField]
  refine ⟨?_, ?_, ?_, ?_⟩
  · intro m e hq
    simp only [recCompare, hga, hgb]
    have hlt1 : jsLtV (Value.num n) (Value.str s) = decLtB n 0 m e := by
      simp [jsLtV, toNumberV, hq, JsNumber.lt]
    have hlt2 : jsLtV (Value.str s) (Value.num n) = decLtB m e n 0 := by
      simp [jsLtV, toNumberV, hq, JsNumber.lt]
    have hq1 : decLtB n 0 m e = true ↔ (n : Rat) < (m : Rat) * 10 ^ e := by
      rw [decLtB_iff]
      simp
    have hq2 : decLtB m e n 0 = true ↔ (m : Rat) * 10 ^ e < (n : Rat) := by
      rw [decLtB_iff]
      simp
    rw [hlt1, hlt2]
    by_cases h1 : (n : Rat) < (m : Rat) * 10 ^ e
    · simp [hq1.mpr h1, h1]
    · have hb1 : decLtB n 0 m e = false := by
        rw [← Bool.not_eq_true]
        exact fun hc => h1 (hq1.mp hc)
      by_cases h2 : (m : Rat) * 10 ^ e < (n : Rat)
      · simp [hb1, hq2.mpr h2, h1, h2]
      · have hb2 : decLtB m e n 0 = false := by
          rw [← Bool.not_eq_true]
          exact fun hc => h2 (hq2.mp hc)
        simp [hb1, hb2, h1, h2, recCompare]
  · intro hq
    simp only [recCompare, hga, hgb]
    have hlt1 : jsLtV (Value.num n) (Value.str s) = true := by
      simp [jsLtV, toNumberV, hq, JsNumber.lt]
    rw [hlt1]
    simp
  · intro hq
    simp only [recCompare, hga, hgb]
    have hlt1 : jsLtV (Value.num n) (Value.str s) = false := by
      simp [jsLtV, toNumberV, hq, JsNumber.lt]
    have hlt2 : jsLtV (Value.str s) (Value.num n) = true := by
      simp [jsLtV, toNumberV, hq, JsNumber.lt]
    rw [hlt1, hlt2]
    simp
  · intro hq
    have hlt1 : jsLtV (Value.num n) (Value.str s) = false := by
      simp [jsLtV, toNumberV, hq]
    have hlt2 : jsLtV (Value.str s) (Value.num n) = false := by
      simp [jsLtV, toNumberV, hq]
    constructor
    · simp only [recCompare, hga, hgb]
      rw [hlt1, hlt2]
      simp [recCompare]
    · simp only [recCompare, hga, hgb]
      rw [hlt1, hlt2]
      simp [recCompare]

/-- Witness for C4 at concrete inputs: the fractional text `"3.5"`, the
non-numeric text `"apple"`, and the infinite texts `"Infinity"` and
`"-Infinity"`, each against the number 5. -/
theorem c4_sort_mixed_type_comparison_witness :
    (toNumber "3.5" = some (JsNumber.fin 35 (-1))
      ∧ recCompare ["k"] "asc" [("k", Value.num 5)] [("k", Value.str "3.5")] =
          (if ((5 : Int) : Rat) < ((35 : Int) : Rat) * 10 ^ (-1 : Int) then -1
           else if ((35 : Int) : Rat) * 10 ^ (-1 : Int) < ((5 : Int) : Rat) then 1 else 0))
    ∧ (toNumber "apple" = none
      ∧ recCompare ["k"] "asc" [("k", Value.num 5)] [("k", Value.str "apple")] = 0)
    ∧ (toNumber "Infinity" = some JsNumber.posInf
      ∧ recCompare ["k"] "asc" [("k", Value.num 5)] [("k", Value.str "Infinity")] = -1)
    ∧ (toNumber "-Infinity" = some JsNumber.negInf
      ∧ recCompare ["k"] "asc" [("k", Value.num 5)] [("k", Value.str "-Infinity")] = 1) :=
  ⟨⟨by decide, (c4_sort_mixed_type_comparison 5 "3.5" "k").1 35 (-1) (by decide)⟩,
   ⟨by decide, ((c4_sort_mixed_type_comparison 5 "apple" "k").2.2.2 (by decide)).1⟩,
   ⟨by decide, (c4_sort_mixed_type_comparison 5 "Infinity" "k").2.1 (by decide)⟩,
   ⟨by decide, (c4_sort_mixed_type_comparison 5 "-Infinity" "k").2.2.1 (by decide)⟩⟩

/-! ### `sort` never mutates its input (C9) -/

/-- A heap of arrays, to make sharing and in-place mutation observable:
arrays are addressed by their index of allocation. -/
structure Store where
  arrays : List (List Rec)

/-- `sort` run against the heap: `data.slice()` allocates a fresh copy at a
new address, the comparison sort happens in place on the copy, and the copy
is returned (lines 889-891 of `src/dev.js`). -/
def sortOp (st : Store) (ref : Nat) (keys : List String) (order : String) :
    Except String (Store × Nat) :=
  if order ≠ "asc" ∧ order ≠ "desc" then
    .error "sort: order must be \x27asc\x27 or \x27desc\x27."
  else
    let copied := st.arrays.getD ref []
    let newRef := st.arrays.length
    let st1 : Store := ⟨st.arrays ++ [copied]⟩
    let st2 : Store := ⟨st1.arrays.set newRef (stableSortBy (recCompare keys order) copied)⟩
    .ok (st2, newRef)

theorem set_append_length {α : Type _} (l : List α) (a b : α) :
    (l ++ [a]).set l.length b = l ++ [b] := by
  induction l with
  | nil => rfl
  | cons x xs ih => simp [List.set, ih]

/-- C9: for a valid order, `sort` returns a freshly allocated sequence
(holding the sorted contents) and leaves every pre-existing array — in
particular its input — completely unchanged. -/
theorem c9_sort_never_mutates_input (st : Store) (ref : Nat) (keys : List String)
    (order : String) (hord : order = "asc" ∨ order = "desc")
    (href : ref < st.arrays.length) :
    ∃ st2 newRef, sortOp st ref keys order = .ok (st2, newRef)
      ∧ newRef ≠ ref
      ∧ (∀ i, i < st.arrays.length → st2.arrays[i]? = st.arrays[i]?)
      ∧ st2.arrays[newRef]? =
          some (stableSortBy (recCompare keys order) (st.arrays.getD ref [])) := by
  have hcond : ¬(order ≠ "asc" ∧ order ≠ "desc") := by
    rcases hord with h | h
    · exact fun hc => hc.1 h
    · exact fun hc => hc.2 h
  refine ⟨⟨st.arrays ++ [stableSortBy (recCompare keys order) (st.arrays.getD ref [])]⟩,
    st.arrays.length, ?_, ?_, ?_, ?_⟩
  · unfold sortOp
    rw [if_neg hcond]
    simp only []
    rw [set_append_length]
  · exact fun h => (Nat.ne_of_lt href) h.symm
  · intro i hi
    simp only []
    rw [List.getElem?_append_left hi]
  · simp only []
    rw [List.getElem?_append_right (Nat.le_refl _)]
    simp

/-- Witness for C9 at a concrete heap: one two-record array, sorted
ascending by `"k"`; the input array at address 0 is untouched and the result
lives at the fresh address 1. -/
theorem c9_sort_never_mutates_input_witness :
    ∃ st2 newRef,
      sortOp ⟨[[[("k", Value.num 2)], [("k", Value.num 1)]]]⟩ 0 ["k"] "asc" =
        .ok (st2, newRef)
      ∧ newRef ≠ 0
      ∧ (∀ i, i < (⟨[[[("k", Value.num 2)], [("k", Value.num 1)]]]⟩ : Store).arrays.length →
          st2.arrays[i]? =
            (⟨[[[("k", Value.num 2)], [("k", Value.num 1)]]]⟩ : Store).arrays[i]?)
      ∧ st2.arrays[newRef]? =
          some (stableSortBy (recCompare ["k"] "asc")
            ((⟨[[[("k", Value.num 2)], [("k", Value.num 1)]]]⟩ : Store).arrays.getD 0 [])) :=
  c9_sort_never_mutates_input ⟨[[[("k", Value.num 2)], [("k", Value.num 1)]]]⟩ 0 ["k"] "asc"
    (Or.inl rfl) (by decide)

/-! ### Order facts about the comparator, used for stability (C7) -/

theorem charEq_of_toNat_eq {a b : Char} (h : a.toNat = b.toNat) : a = b := by
  have := congrArg Char.ofNat h
  rwa [Char.ofNat_toNat, Char.ofNat_toNat] at this

theorem charListLt_irrefl : ∀ (l : List Char), charListLt l l = false := by
  intro l
  induction l with
  | nil => rfl
  | cons a as ih => simp [charListLt, ih]

theorem charListLt_asymm : ∀ (as bs : List Char),
    charListLt as bs = true → charListLt bs as = false := by
  intro as
  induction as with
  | nil =>
    intro bs h
    cases bs with
    | nil => simp [charListLt] at h ⊢
    | cons b bs' => rfl
  | cons a as' ih =>
    intro bs h
    cases bs with
    | nil => simp [charListLt] at h
    | cons b bs' =>
      simp only [charListLt] at h ⊢
      by_cases hab : a.toNat < b.toNat
      · rw [if_neg (by omega), if_pos hab]
      · by_cases hba : b.toNat < a.toNat
        · rw [if_pos hba] at h ⊢
          rw [if_neg hab] at h
          exact absurd h (by simp)
        · rw [if_neg hab, if_neg hba] at h
          rw [if_neg hba, if_neg hab]
          exact ih bs' h

theorem charListLt_trans : ∀ (as bs cs : List Char),
    charListLt as bs = true → charListLt bs cs = true → charListLt as cs = true := by
  intro as
  induction as with
  | nil =>
    intro bs cs hab hbc
    cases bs with
    | nil => simp [charListLt] at hab
    | cons b bs' =>
      cases cs with
      | nil => simp [charListLt] at hbc
      | cons c cs' => rfl
  | cons a as' ih =>
    intro bs cs hab hbc
    cases bs with
    | nil => simp [charListLt] at hab
    | cons b bs' =>
      cases cs with
      | nil => simp [charListLt] at hbc
      | cons c cs' =>
        simp only [charListLt] at hab hbc ⊢
        by_cases hab1 : a.toNat < b.toNat
        · by_cases hbc1 : b.toNat < c.toNat
          · rw [if_pos (by omega)]
          · by_cases hcb : c.toNat < b.toNat
            · rw [if_neg hbc1, if_pos hcb] at hbc
              exact absurd hbc (by simp)
            · rw [if_pos (by omega)]
        · by_cases hba : b.toNat < a.toNat
          · rw [if_neg hab1, if_pos hba] at hab
            exact absurd hab (by simp)
          · have heq : a.toNat = b.toNat := by omega
            rw [if_neg hab1, if_neg hba] at hab
            by_cases hbc1 : b.toNat < c.toNat
            · rw [if_pos (by omega)]
            · by_cases hcb : c.toNat < b.toNat
              · rw [if_pos hcb] at hbc
                rw [if_neg hbc1] at hbc
                exact absurd hbc (by simp)
              · rw [if_neg hbc1, if_neg hcb] at hbc
                rw [if_neg (by omega), if_neg (by omega)]
                exact ih bs' cs' hab hbc

theorem charListLt_eq_of_not : ∀ (as bs : List Char),
    charListLt as bs = false → charListLt bs as = false → as = bs := by
  intro as
  induction as with
  | nil =>
    intro bs hab _
    cases bs with
    | nil => rfl
    | cons b bs' => simp [charListLt] at hab
  | cons a as' ih =>
    intro bs hab hba
    cases bs with
    | nil => simp [charListLt] at hba
    | cons b bs' =>
      simp only [charListLt] at hab hba
      by_cases h1 : a.toNat < b.toNat
      · rw [if_pos h1] at hab
        exact absurd hab (by simp)
      · by_cases h2 : b.toNat < a.toNat
        · rw [if_pos h2] at hba
          exact absurd hba (by simp)
        · rw [if_neg h1, if_neg h2] at hab
          rw [if_neg h2, if_neg h1] at hba
          have hc : a = b := charEq_of_toNat_eq (by omega)
          rw [hc, ih bs' hab hba]

theorem jsStrLt_asymm (x y : String) (h : jsStrLt x y = true) : jsStrLt y x = false :=
  charListLt_asymm _ _ h

theorem jsStrLt_trans (x y z : String) (h1 : jsStrLt x y = true) (h2 : jsStrLt y z = true) :
    jsStrLt x z = true :=
  charListLt_trans _ _ _ h1 h2

theorem jsStrLt_eq_of_not (x y : String) (h1 : jsStrLt x y = false)
    (h2 : jsStrLt y x = false) : x = y :=
  String.ext (charListLt_eq_of_not _ _ h1 h2)

theorem jsLtV_str (x y : String) : jsLtV (.str x) (.str y) = jsStrLt x y := rfl

theorem jsLtV_num (m n : Int) : jsLtV (.num m) (.num n) = decide (m < n) := by
  have h : jsLtV (.num m) (.num n) = decLtB m 0 n 0 := rfl
  have h2 : decLtB m 0 n 0 = true ↔ m < n := by
    rw [decLtB_iff]
    simp
  rw [h]
  by_cases hmn : m < n
  · simp [h2.mpr hmn, hmn]
  · have h3 : decLtB m 0 n 0 ≠ true := fun hc => hmn (h2.mp hc)
    simp [Bool.eq_false_iff.mpr h3, hmn]

theorem jsLtV_irrefl (v : Value) : jsLtV v v = false := by
  cases v with
  | num n => exact decLtB_irrefl n 0
  | str s => exact charListLt_irrefl _
  | undef => rfl

theorem jsLtV_asymm (a b : Value) (h : jsLtV a b = true) : jsLtV b a = false := by
  cases a with
  | str x =>
    cases b with
    | str y => exact jsStrLt_asymm x y h
    | num n =>
      simp only [jsLtV, toNumberV] at h ⊢
      cases hx : toNumber x with
      | none => simp [hx] at h
      | some m =>
        simp only [hx] at h ⊢
        exact JsNumber.lt_asymm _ _ h
    | undef => simp [jsLtV, toNumberV] at h
  | num m =>
    cases b with
    | str y =>
      simp only [jsLtV, toNumberV] at h ⊢
      cases hy : toNumber y with
      | none => simp [hy] at h
      | some n =>
        simp only [hy] at h ⊢
        exact JsNumber.lt_asymm _ _ h
    | num n =>
      simp only [jsLtV, toNumberV] at h ⊢
      exact JsNumber.lt_asymm _ _ h
    | undef => simp [jsLtV, toNumberV] at h
  | undef =>
    cases b with
    | str y => simp [jsLtV, toNumberV] at h
    | num n => simp [jsLtV, toNumberV] at h
    | undef => simp [jsLtV, toNumberV] at h

theorem recCompare_self (keys : List String) (order : String) (a : Rec) :
    recCompare keys order a a = 0 := by
  induction keys with
  | nil => rfl
  | cons k ks ih =>
    simp only [recCompare, jsLtV_irrefl]
    simpa using ih

theorem recCompare_antisym (keys : List String) (order : String) :
    ∀ (a b : Rec), recCompare keys order b a = -(recCompare keys order a b) := by
  induction keys with
  | nil => intro a b; rfl
  | cons k ks ih =>
    intro a b
    simp only [recCompare]
    by_cases h1 : jsLtV (getField a k) (getField b k) = true
    · have h2 : jsLtV (getField b k) (getField a k) = false := jsLtV_asymm _ _ h1
      rw [if_pos h1, if_neg (by rw [h2]; exact Bool.false_ne_true), if_pos h1]
      by_cases ho : order = "asc" <;> simp [ho]
    · by_cases h2 : jsLtV (getField b k) (getField a k) = true
      · rw [if_pos h2, if_neg h1, if_pos h2]
        by_cases ho : order = "asc" <;> simp [ho]
      · rw [if_neg h1, if_neg h2, if_neg h2, if_neg h1]
        exact ih a b

theorem recCompare_congr_left (keys : List String) (order : String) (u v : Rec)
    (h : ∀ k ∈ keys, getField u k = getField v k) :
    ∀ w, recCompare keys order u w = recCompare keys order v w := by
  induction keys with
  | nil => intro w; rfl
  | cons k ks ih =>
    intro w
    have hk : getField u k = getField v k := h k (List.mem_cons_self _ _)
    simp only [recCompare, hk]
    have := ih (fun k' hk' => h k' (List.mem_cons_of_mem _ hk')) w
    rw [this]

theorem recCompare_flip (keys : List String) (order : String) (horder : order ≠ "asc") :
    ∀ (a b : Rec), recCompare keys order a b = recCompare keys "asc" b a := by
  induction keys with
  | nil => intro a b; rfl
  | cons k ks ih =>
    intro a b
    simp only [recCompare]
    by_cases h1 : jsLtV (getField a k) (getField b k) = true
    · have h2 : jsLtV (getField b k) (getField a k) = false := jsLtV_asymm _ _ h1
      simp [h1, h2, horder]
    · by_cases h2 : jsLtV (getField b k) (getField a k) = true
      · simp [h1, h2, horder]
      · simp only [h1, if_false, h2, if_neg (fun hc : False => hc.elim)]
        simp [h1, h2]
        exact ih a b

/-- Transitivity of one lexicographic comparison step for a strict order
given by a boolean relation that is asymmetric, transitive and total. -/
theorem step_trans {α : Type _} (lt : α → α → Bool)
    (htrans : ∀ u v w, lt u v = true → lt v w = true → lt u w = true)
    (heq : ∀ u v, lt u v = false → lt v u = false → u = v)
    (x y z : α) (rab rbc rac : Int)
    (hrec : rab ≤ 0 → rbc ≤ 0 → rac ≤ 0)
    (hab : (if lt x y = true then (-1 : Int) else if lt y x = true then 1 else rab) ≤ 0)
    (hbc : (if lt y z = true then (-1 : Int) else if lt z y = true then 1 else rbc) ≤ 0) :
    (if lt x z = true then (-1 : Int) else if lt z x = true then 1 else rac) ≤ 0 := by
  by_cases hxy : lt x y = true
  · by_cases hyz : lt y z = true
    · rw [if_pos (htrans _ _ _ hxy hyz)]; omega
    · by_cases hzy : lt z y = true
      · rw [if_neg hyz, if_pos hzy] at hbc; omega
      · have hyz' : y = z :=
          heq _ _ (Bool.eq_false_iff.mpr hyz) (Bool.eq_false_iff.mpr hzy)
        subst hyz'
        rw [if_pos hxy]; omega
  · by_cases hyx : lt y x = true
    · rw [if_neg hxy, if_pos hyx] at hab; omega
    · have hxy' : x = y :=
        heq _ _ (Bool.eq_false_iff.mpr hxy) (Bool.eq_false_iff.mpr hyx)
      subst hxy'
      rw [if_neg hxy, if_neg hyx] at hab
      by_cases hxz : lt x z = true
      · rw [if_pos hxz]; omega
      · by_cases hzx : lt z x = true
        · rw [if_neg hxz, if_pos hzx] at hbc; omega
        · rw [if_neg hxz, if_neg hzx] at hbc ⊢
          exact hrec hab hbc

theorem recCompare_asc_trans : ∀ (keys : List String) (a b c : Rec),
    (∀ k ∈ keys,
      ((getField a k).isStr = true ∧ (getField b k).isStr = true ∧ (getField c k).isStr = true)
      ∨ ((getField a k).isNum = true ∧ (getField b k).isNum = true ∧
          (getField c k).isNum = true)) →
    recCompare keys "asc" a b ≤ 0 → recCompare keys "asc" b c ≤ 0 →
    recCompare keys "asc" a c ≤ 0 := by
  intro keys
  induction keys with
  | nil => intro a b c _ _ _; simp [recCompare]
  | cons k ks ih =>
    intro a b c hkind hab hbc
    have h1 : (if ("asc" : String) = "asc" then (-1 : Int) else 1) = -1 := if_pos rfl
    have h2 : (if ("asc" : String) = "asc" then (1 : Int) else -1) = 1 := if_pos rfl
    simp only [recCompare, h1, h2] at hab hbc ⊢
    have hrec : recCompare ks "asc" a b ≤ 0 → recCompare ks "asc" b c ≤ 0 →
        recCompare ks "asc" a c ≤ 0 :=
      ih a b c (fun k' hk' => hkind k' (List.mem_cons_of_mem _ hk'))
    rcases hkind k (List.mem_cons_self _ _) with ⟨ha, hb, hc⟩ | ⟨ha, hb, hc⟩
    · obtain ⟨x, hx⟩ : ∃ x, getField a k = .str x := by
        cases hv : getField a k <;> rw [hv] at ha <;> simp [Value.isStr] at ha
        exact ⟨_, rfl⟩
      obtain ⟨y, hy⟩ : ∃ y, getField b k = .str y := by
        cases hv : getField b k <;> rw [hv] at hb <;> simp [Value.isStr] at hb
        exact ⟨_, rfl⟩
      obtain ⟨z, hz⟩ : ∃ z, getField c k = .str z := by
        cases hv : getField c k <;> rw [hv] at hc <;> simp [Value.isStr] at hc
        exact ⟨_, rfl⟩
      rw [hx, hy, jsLtV_str] at hab
      rw [hy, hz, jsLtV_str] at hbc
      rw [hx, hz, jsLtV_str]
      exact step_trans jsStrLt jsStrLt_trans jsStrLt_eq_of_not x y z _ _ _ hrec hab hbc
    · obtain ⟨x, hx⟩ : ∃ x, getField a k = .num x := by
        cases hv : getField a k <;> rw [hv] at ha <;> simp [Value.isNum] at ha
        exact ⟨_, rfl⟩
      obtain ⟨y, hy⟩ : ∃ y, getField b k = .num y := by
        cases hv : getField b k <;> rw [hv] at hb <;> simp [Value.isNum] at hb
        exact ⟨_, rfl⟩
      obtain ⟨z, hz⟩ : ∃ z, getField c k = .num z := by
        cases hv : getField c k <;> rw [hv] at hc <;> simp [Value.isNum] at hc
        exact ⟨_, rfl⟩
      rw [hx, hy, jsLtV_num x y, jsLtV_num y x] at hab
      rw [hy, hz, jsLtV_num y z, jsLtV_num z y] at hbc
      rw [hx, hz, jsLtV_num x z, jsLtV_num z x]
      refine step_trans (fun u v : Int => decide (u < v)) ?_ ?_ x y z _ _ _ hrec hab hbc
      · intro u v w hu hv
        simp only [decide_eq_true_eq] at hu hv ⊢
        omega
      · intro u v hu hv
        simp only [decide_eq_false_iff_not] at hu hv
        omega

theorem recCompare_trans_le (keys : List String) (order : String) (a b c : Rec)
    (hkind : ∀ k ∈ keys,
      ((getField a k).isStr = true ∧ (getField b k).isStr = true ∧ (getField c k).isStr = true)
      ∨ ((getField a k).isNum = true ∧ (getField b k).isNum = true ∧
          (getField c k).isNum = true))
    (hab : recCompare keys order a b ≤ 0) (hbc : recCompare keys order b c ≤ 0) :
    recCompare keys order a c ≤ 0 := by
  by_cases ho : order = "asc"
  · subst ho
    exact recCompare_asc_trans keys a b c hkind hab hbc
  · rw [recCompare_flip keys order ho] at hab hbc ⊢
    refine recCompare_asc_trans keys c b a ?_ hbc hab
    intro k hk
    rcases hkind k hk with ⟨h1, h2, h3⟩ | ⟨h1, h2, h3⟩
    · exact Or.inl ⟨h3, h2, h1⟩
    · exact Or.inr ⟨h3, h2, h1⟩

/-! ### Stability of the sort (C7) -/

theorem insertBefore_mem (cmp : Rec → Rec → Int) (x : Rec) :
    ∀ (l : List Rec) (z : Rec), z ∈ insertBefore cmp x l ↔ z = x ∨ z ∈ l := by
  intro l
  induction l with
  | nil => intro z; simp [insertBefore]
  | cons y ys ih =>
    intro z
    rw [insertBefore]
    by_cases h : cmp x y < 0
    · rw [if_pos h]
      simp [List.mem_cons]
    · rw [if_neg h]
      simp only [List.mem_cons, ih]
      tauto

theorem insertBefore_pairwise (cmp : Rec → Rec → Int) (data : List Rec)
    (htrans : ∀ a ∈ data, ∀ b ∈ data, ∀ c ∈ data,
      cmp a b ≤ 0 → cmp b c ≤ 0 → cmp a c ≤ 0)
    (hasym : ∀ a b, cmp b a = -(cmp a b))
    (x : Rec) (hx : x ∈ data) :
    ∀ (l : List Rec), (∀ y ∈ l, y ∈ data) →
      l.Pairwise (fun u v => cmp u v ≤ 0) →
      (insertBefore cmp x l).Pairwise (fun u v => cmp u v ≤ 0) := by
  intro l
  induction l with
  | nil => intro _ _; simp [insertBefore]
  | cons y ys ih =>
    intro hl hp
    rcases List.pairwise_cons.mp hp with ⟨hy_le, hys⟩
    have hy : y ∈ data := hl y (List.mem_cons_self _ _)
    have hys_data : ∀ z ∈ ys, z ∈ data := fun z hz => hl z (List.mem_cons_of_mem _ hz)
    rw [insertBefore]
    by_cases hxy : cmp x y < 0
    · rw [if_pos hxy]
      refine List.pairwise_cons.mpr ⟨?_, hp⟩
      intro z hz
      rcases List.mem_cons.mp hz with rfl | hz'
      · exact Int.le_of_lt hxy
      · exact htrans x hx y hy z (hys_data z hz') (Int.le_of_lt hxy) (hy_le z hz')
    · rw [if_neg hxy]
      refine List.pairwise_cons.mpr ⟨?_, ih hys_data hys⟩
      intro z hz
      rcases (insertBefore_mem cmp x ys z).mp hz with rfl | hz'
      · rw [hasym z y]
        omega
      · exact hy_le z hz'

theorem filter_insertBefore (cmp : Rec → Rec → Int) (data : List Rec)
    (hasym : ∀ a b, cmp b a = -(cmp a b))
    (p : Rec → Bool)
    (hclass : ∀ u ∈ data, ∀ v ∈ data, p u = true → p v = true → ∀ w, cmp u w = cmp v w)
    (hself : ∀ a, cmp a a = 0)
    (x : Rec) (hx : x ∈ data) :
    ∀ (l : List Rec), (∀ y ∈ l, y ∈ data) →
      l.Pairwise (fun u v => cmp u v ≤ 0) →
      (insertBefore cmp x l).filter p = l.filter p ++ (if p x then [x] else []) := by
  intro l
  induction l with
  | nil =>
    intro _ _
    cases hpx : p x
    · simp [insertBefore, List.filter, hpx]
    · simp [insertBefore, List.filter, hpx]
  | cons y ys ih =>
    intro hl hp
    rcases List.pairwise_cons.mp hp with ⟨hy_le, hys⟩
    have hy : y ∈ data := hl y (List.mem_cons_self _ _)
    have hys_data : ∀ z ∈ ys, z ∈ data := fun z hz => hl z (List.mem_cons_of_mem _ hz)
    rw [insertBefore]
    by_cases hxy : cmp x y < 0
    · rw [if_pos hxy]
      cases hpx : p x
      · -- x is outside the class: the filter ignores it
        rw [List.filter_cons_of_neg (by simp [hpx])]
        simp
      · -- x is in the class: no class member may already sit at or after y
        have hclassnil : List.filter p (y :: ys) = [] := by
          rw [List.filter_eq_nil_iff]
          intro z hz hpz
          rcases List.mem_cons.mp hz with rfl | hz'
          · -- y itself in the class would make cmp x y = cmp y y = 0
            have := hclass x hx z hy hpx hpz z
            rw [hself z] at this
            omega
          · -- a later class member z: cmp z y = cmp x y < 0 contradicts sortedness
            have hzy : cmp z y = cmp x y := by
              have := hclass z (hys_data z hz') x hx hpz hpx y
              exact this
            have hyz := hy_le z hz'
            have h2 : cmp y z = -(cmp z y) := hasym z y
            omega
        rw [List.filter_cons_of_pos (by simp [hpx]), hclassnil]
        simp
    · rw [if_neg hxy]
      have ihe := ih hys_data hys
      cases hpy : p y
      · rw [List.filter_cons_of_neg (by simp [hpy]), List.filter_cons_of_neg (by simp [hpy])]
        exact ihe
      · rw [List.filter_cons_of_pos (by simp [hpy]), List.filter_cons_of_pos (by simp [hpy])]
        rw [ihe, List.cons_append]

theorem foldl_insert_filter (cmp : Rec → Rec → Int) (data : List Rec)
    (htrans : ∀ a ∈ data, ∀ b ∈ data, ∀ c ∈ data,
      cmp a b ≤ 0 → cmp b c ≤ 0 → cmp a c ≤ 0)
    (hasym : ∀ a b, cmp b a = -(cmp a b))
    (p : Rec → Bool)
    (hclass : ∀ u ∈ data, ∀ v ∈ data, p u = true → p v = true → ∀ w, cmp u w = cmp v w)
    (hself : ∀ a, cmp a a = 0) :
    ∀ (rest acc : List Rec), (∀ y ∈ rest, y ∈ data) → (∀ y ∈ acc, y ∈ data) →
      acc.Pairwise (fun u v => cmp u v ≤ 0) →
      (rest.foldl (fun acc x => insertBefore cmp x acc) acc).filter p =
        acc.filter p ++ rest.filter p := by
  intro rest
  induction rest with
  | nil => intro acc _ _ _; simp
  | cons x rest' ih =>
    intro acc hrest hacc hp
    have hx : x ∈ data := hrest x (List.mem_cons_self _ _)
    have hrest' : ∀ y ∈ rest', y ∈ data := fun y hy => hrest y (List.mem_cons_of_mem _ hy)
    have hacc' : ∀ y ∈ insertBefore cmp x acc, y ∈ data := by
      intro y hy
      rcases (insertBefore_mem cmp x acc y).mp hy with rfl | hy'
      · exact hx
      · exact hacc y hy'
    have hp' : (insertBefore cmp x acc).Pairwise (fun u v => cmp u v ≤ 0) :=
      insertBefore_pairwise cmp data htrans hasym x hx acc hacc hp
    rw [List.foldl_cons]
    rw [ih (insertBefore cmp x acc) hrest' hacc' hp']
    rw [filter_insertBefore cmp data hasym p hclass hself x hx acc hacc hp]
    cases hpx : p x
    · rw [List.filter_cons_of_neg (by simp [hpx])]
      simp
    · rw [List.filter_cons_of_pos (by simp [hpx])]
      simp

/-- `stableSortBy` restricted to any class of pairwise fully-tied records
reproduces the input order, provided the comparator is consistent on the
collection. -/
theorem stableSortBy_filter (cmp : Rec → Rec → Int) (data : List Rec)
    (htrans : ∀ a ∈ data, ∀ b ∈ data, ∀ c ∈ data,
      cmp a b ≤ 0 → cmp b c ≤ 0 → cmp a c ≤ 0)
    (hasym : ∀ a b, cmp b a = -(cmp a b))
    (p : Rec → Bool)
    (hclass : ∀ u ∈ data, ∀ v ∈ data, p u = true → p v = true → ∀ w, cmp u w = cmp v w)
    (hself : ∀ a, cmp a a = 0) :
    (stableSortBy cmp data).filter p = data.filter p := by
  have := foldl_insert_filter cmp data htrans hasym p hclass hself data []
    (fun y hy => hy) (by intro y hy; simp at hy) List.Pairwise.nil
  simpa [stableSortBy] using this

/-- C7: `sort` is stable — the worked example sorts exactly as stated, and
in general, on collections whose sort-key values are consistently ordered
(per key all text or all numeric, so that the comparator is a total
preorder, which ECMAScript requires for a specified sort order), the
records of any class with equal values on all sort keys retain their
original relative order in the output. -/
theorem c7_sort_stable :
    (sort
        [[("name", Value.str "Alice"), ("age", Value.num 30)],
         [("name", Value.str "Bob"), ("age", Value.num 20)],
         [("name", Value.str "Alice"), ("age", Value.num 25)]]
        ["name", "age"] "asc" =
      .ok [[("name", Value.str "Alice"), ("age", Value.num 25)],
           [("name", Value.str "Alice"), ("age", Value.num 30)],
           [("name", Value.str "Bob"), ("age", Value.num 20)]])
    ∧ ∀ (data : List Rec) (keys : List String) (order : String) (p : Rec → Bool),
        (∀ k ∈ keys, (∀ r ∈ data, (getField r k).isStr = true) ∨
            (∀ r ∈ data, (getField r k).isNum = true)) →
        (∀ u ∈ data, ∀ v ∈ data, p u = true → p v = true →
            ∀ k ∈ keys, getField u k = getField v k) →
        ∀ out, sort data keys order = .ok out → out.filter p = data.filter p := by
  constructor
  · rfl
  · intro data keys order p hkinds hclasskeys out hout
    have hout' : out = stableSortBy (recCompare keys order) data := by
      unfold sort at hout
      by_cases hord : order ≠ "asc" ∧ order ≠ "desc"
      · rw [if_pos hord] at hout; exact absurd hout (by simp)
      · rw [if_neg hord] at hout
        exact ((Except.ok.injEq _ _).mp hout).symm
    subst hout'
    refine stableSortBy_filter (recCompare keys order) data ?_ ?_ p ?_ ?_
    · intro a ha b hb c hc hab hbc
      refine recCompare_trans_le keys order a b c ?_ hab hbc
      intro k hk
      rcases hkinds k hk with h | h
      · exact Or.inl ⟨h a ha, h b hb, h c hc⟩
      · exact Or.inr ⟨h a ha, h b hb, h c hc⟩
    · intro a b
      exact recCompare_antisym keys order a b
    · intro u hu v hv hpu hpv w
      exact recCompare_congr_left keys order u v (hclasskeys u hu v hv hpu hpv) w
    · intro a
      exact recCompare_self keys order a

/-- Witness for C7: two records tied on the single sort key `"k"` (text
`"b"`), separated by a smaller record; after sorting, the class of tied
records keeps its input order. -/
theorem c7_sort_stable_witness :
    (stableSortBy (recCompare ["k"] "asc")
        [[("k", Value.str "b"), ("t", Value.num 1)],
         [("k", Value.str "a")],
         [("k", Value.str "b"), ("t", Value.num 2)]]).filter
      (fun r => decide (getField r "k" = Value.str "b")) =
    ([[("k", Value.str "b"), ("t", Value.num 1)],
      [("k", Value.str "a")],
      [("k", Value.str "b"), ("t", Value.num 2)]] : List Rec).filter
      (fun r => decide (getField r "k" = Value.str "b")) :=
  c7_sort_stable.2
    [[("k", Value.str "b"), ("t", Value.num 1)],
     [("k", Value.str "a")],
     [("k", Value.str "b"), ("t", Value.num 2)]]
    ["k"] "asc" (fun r => decide (getField r "k" = Value.str "b"))
    (by decide) (by decide) _ (by rfl)

/-! ### The tabular (CSV) serializer and parser -/

/-- JS `String.prototype.split` with a one-character separator, on character
lists; splitting the empty string yields one empty piece. -/
def splitCharList (sep : Char) : List Char → List (List Char)
  | [] => [[]]
  | ch :: rest =>
    match splitCharList sep rest with
    | [] => [[]]
    | h :: t => if ch = sep then [] :: h :: t else (ch :: h) :: t

/-- `s.split(sep)` for a one-character separator. -/
def jsSplit (s : String) (sep : Char) : List String :=
  (splitCharList sep s.data).map String.mk

/-- `Array.prototype.join` with a one-character separator, on character
lists. -/
def joinCharList (sep : Char) : List (List Char) → List Char
  | [] => []
  | [p] => p
  | p :: ps => p ++ sep :: joinCharList sep ps

/-- `strs.join(sep)` for a one-character separator. -/
def jsJoin (sep : Char) (strs : List String) : String :=
  String.mk (joinCharList sep (strs.map String.data))

/-- Lower-case hexadecimal digit (only meaningful for `d < 16`). -/
def hexDigit (d : Nat) : Char :=
  match d with
  | 0 => '0' | 1 => '1' | 2 => '2' | 3 => '3' | 4 => '4'
  | 5 => '5' | 6 => '6' | 7 => '7' | 8 => '8' | 9 => '9'
  | 10 => 'a' | 11 => 'b' | 12 => 'c' | 13 => 'd' | 14 => 'e' | _ => 'f'

/-- The JSON escape of one character, as produced by `JSON.stringify` on
strings. -/
def escapeChar (c : Char) : List Char :=
  if c = '"' then ['\\', '"']
  else if c = '\\' then ['\\', '\\']
  else if c = '\n' then ['\\', 'n']
  else if c = '\r' then ['\\', 'r']
  else if c = '\t' then ['\\', 't']
  else if c = '\x08' then ['\\', 'b']
  else if c = '\x0c' then ['\\', 'f']
  else if c.toNat < 32 then ['\\', 'u', '0', '0', hexDigit (c.toNat / 16), hexDigit (c.toNat % 16)]
  else [c]

/-- The escaped body of a JSON string literal. -/
def escBody (s : String) : List Char :=
  s.data.foldr (fun c acc => escapeChar c ++ acc) []

/-- `JSON.stringify` of a string: the escaped body between double quotes. -/
def jsonQuote (s : String) : String :=
  String.mk ('"' :: (escBody s ++ ['"']))

/-- One CSV cell of `writeCsv`: `JSON.stringify(row[header] ?? "")` — a
missing (`undefined`) field is defaulted to the empty string before
stringification. -/
def writeCell (v : Value) : String :=
  match v with
  | .undef => jsonQuote ""
  | .num n => jsNumToString n
  | .str s => jsonQuote s

/-- `Object.keys`. -/
def recKeys (r : Rec) : List String := r.map Prod.fst

/-- One CSV data row of `writeCsv`:
`headers.map((header) => JSON.stringify(row[header] ?? "")).join(",")`. -/
def rowLine (headers : List String) (row : Rec) : String :=
  jsJoin ',' (headers.map (fun h => writeCell (getField row h)))

/-- `writeCsv(filePath, data)` from `src/dev.js` (lines 761-778), with the
file system abstracted away: the produced text is returned.  Headers are the
keys of the first record; every cell is JSON-stringified; rows are joined
with commas and lines with newlines. -/
def writeCsv (data : List Rec) : Except String String :=
  if data.length = 0 then
    .error "Invalid data: Expected a non-empty array of objects."
  else
    let headers := recKeys (data.headD [])
    let csvRows := data.map (rowLine headers)
    .ok (jsJoin '\n' (jsJoin ',' headers :: csvRows))

/-- One data cell of `readCsv`: `isNaN(v) ? v : Number(v)` — numeric text
becomes a number, anything else stays text. -/
def parseCell (s : String) : Value :=
  match jsToNumber s with
  | some n => .num n
  | none => .str s

/-- The `headers.reduce` of `readCsv`: assign `obj[header] = parseCell
(values[index])` in header order. -/
def buildRecord (headers values : List String) : Rec :=
  (headers.zip values).foldl (fun obj hv => setField obj hv.1 (parseCell hv.2)) []

/-- The row loop of `readCsv`: split each line on commas, trim the cells,
check the column count (the thrown error aborts the whole call), and build
the record. -/
def readCsvRows (headers : List String) : List String → Nat → Except String (List Rec)
  | [], _ => .ok []
  | line :: rest, idx =>
    let values := (jsSplit line ',').map jsTrim
    let nv := values.length
    let nh := headers.length
    if nv ≠ nh then .error s!"Row {idx + 2} has {nv} columns; expected {nh}."
    else
      match readCsvRows headers rest (idx + 1) with
      | .error e => .error e
      | .ok recs => .ok (buildRecord headers values :: recs)

/-- `readCsv(filePath)` from `src/dev.js` (lines 531-557), with the file
system abstracted away: the file's text is the argument.  The whole text is
trimmed and split into lines; the first line, split on commas and trimmed,
gives the headers; the remaining lines become records. -/
def readCsv (text : String) : Except String (List Rec) :=
  let lines := jsSplit (jsTrim text) '\n'
  let headers := (jsSplit (lines.headD "") ',').map jsTrim
  readCsvRows headers lines.tail 0

/-- C10: in `readCsv`, a data cell that is empty after trimming — in
particular any whitespace-only cell — is classified as numeric by the
`isNaN` test (JS `Number("") = 0`) and converted to the number 0 rather
than kept as empty text; end-to-end, the whitespace cell of `"a,b\n , x"`
comes back as the number 0. -/
theorem c10_empty_cell_becomes_zero :
    (∀ (cell : String), jsTrim cell = "" → parseCell (jsTrim cell) = Value.num 0)
    ∧ readCsv "a,b\n , x" = .ok [[("a", Value.num 0), ("b", Value.str "x")]] := by
  constructor
  · intro cell h
    rw [h]
    rfl
  · rfl

/-- Witness for C10: the one-space cell trims to empty and parses as 0. -/
theorem c10_empty_cell_becomes_zero_witness :
    parseCell (jsTrim " ") = Value.num 0 :=
  c10_empty_cell_becomes_zero.1 " " (by rfl)

/-- C3 counterexample: the round-trip is not the identity on text fields.
`writeCsv` JSON-stringifies every value, so the text `Alice` is written as
`"Alice"` (with quote characters); `readCsv` never strips the quotes, so the
field comes back as the 7-character text `"Alice"`, not the original. -/
theorem c3_csv_roundtrip_counterexample :
    writeCsv [[("name", Value.str "Alice")]] = .ok "name\n\"Alice\""
    ∧ readCsv "name\n\"Alice\"" = .ok [[("name", Value.str "\"Alice\"")]]
    ∧ ([[("name", Value.str "\"Alice\"")]] : List Rec) ≠ [[("name", Value.str "Alice")]] :=
  ⟨by rfl, by rfl, by decide⟩

/-! ### Round-trip lemmas: strings, splitting and joining -/

theorem mk_data (s : String) : String.mk s.data = s := by
  obtain ⟨l⟩ := s
  rfl

theorem data_mk (l : List Char) : (String.mk l).data = l := rfl

theorem headD_mem {α : Type _} (l : List α) (d : α) (h : l ≠ []) : l.headD d ∈ l := by
  cases l with
  | nil => exact absurd rfl h
  | cons c t => simp

theorem mem_of_getLast? {α : Type _} {l : List α} {c : α} (h : l.getLast? = some c) :
    c ∈ l := by
  have := List.mem_of_mem_head? (l := l.reverse) (by rw [List.head?_reverse, h]; rfl)
  rwa [List.mem_reverse] at this

theorem splitCharList_ne_nil (sep : Char) : ∀ (l : List Char), splitCharList sep l ≠ [] := by
  intro l
  induction l with
  | nil => simp [splitCharList]
  | cons c t ih =>
    rw [splitCharList]
    rcases h : splitCharList sep t with _ | ⟨h1, t1⟩
    · exact absurd h ih
    · by_cases hc : c = sep <;> simp [hc]

theorem splitCharList_no_sep (sep : Char) :
    ∀ (p : List Char), (∀ c ∈ p, c ≠ sep) → splitCharList sep p = [p] := by
  intro p
  induction p with
  | nil => intro _; rfl
  | cons c t ih =>
    intro h
    have hc : c ≠ sep := h c (List.mem_cons_self _ _)
    have ht := ih (fun c' hc' => h c' (List.mem_cons_of_mem _ hc'))
    rw [splitCharList, ht]
    simp [hc]

theorem splitCharList_append_sep (sep : Char) :
    ∀ (p l : List Char), (∀ c ∈ p, c ≠ sep) →
      splitCharList sep (p ++ sep :: l) = p :: splitCharList sep l := by
  intro p
  induction p with
  | nil =>
    intro l _
    rw [List.nil_append, splitCharList]
    rcases h : splitCharList sep l with _ | ⟨h1, t1⟩
    · exact absurd h (splitCharList_ne_nil sep l)
    · simp
  | cons c t ih =>
    intro l h
    have hc : c ≠ sep := h c (List.mem_cons_self _ _)
    rw [List.cons_append, splitCharList,
      ih l (fun c' hc' => h c' (List.mem_cons_of_mem _ hc'))]
    simp [hc]

theorem split_join_roundtrip (sep : Char) :
    ∀ (pieces : List (List Char)), pieces ≠ [] → (∀ p ∈ pieces, ∀ c ∈ p, c ≠ sep) →
      splitCharList sep (joinCharList sep pieces) = pieces := by
  intro pieces
  induction pieces with
  | nil => intro h _; exact absurd rfl h
  | cons p ps ih =>
    intro _ h
    cases ps with
    | nil =>
      rw [joinCharList]
      exact splitCharList_no_sep sep p (h p (List.mem_cons_self _ _))
    | cons q qs =>
      rw [joinCharList]
      rw [splitCharList_append_sep sep p _ (h p (List.mem_cons_self _ _))]
      rw [ih (List.cons_ne_nil q qs) (fun p' hp' => h p' (List.mem_cons_of_mem _ hp'))]
      exact fun hq => List.noConfusion hq

theorem jsSplit_jsJoin (sep : Char) (strs : List String) (h1 : strs ≠ [])
    (h2 : ∀ s ∈ strs, ∀ c ∈ s.data, c ≠ sep) :
    jsSplit (jsJoin sep strs) sep = strs := by
  unfold jsSplit jsJoin
  rw [data_mk]
  rw [split_join_roundtrip sep (strs.map String.data) (by simpa using h1) ?_]
  · rw [List.map_map]
    have : strs.map (String.mk ∘ String.data) = strs.map id :=
      List.map_congr_left (fun s _ => mk_data s)
    rw [this, List.map_id]
  · intro p hp
    rcases List.mem_map.mp hp with ⟨s, hs, rfl⟩
    exact h2 s hs

theorem dropWhile_id_of_head? (p : Char → Bool) (l : List Char)
    (h : ∀ c, l.head? = some c → p c = false) : l.dropWhile p = l := by
  cases l with
  | nil => rfl
  | cons c t => rw [List.dropWhile_cons, h c rfl]; simp

theorem trimChars_id (l : List Char)
    (h1 : ∀ c, l.head? = some c → isWsChar c = false)
    (h2 : ∀ c, l.getLast? = some c → isWsChar c = false) :
    jsTrimChars l = l := by
  unfold jsTrimChars
  rw [dropWhile_id_of_head? _ l h1]
  rw [dropWhile_id_of_head? _ l.reverse ?_]
  · exact List.reverse_reverse l
  · intro c hc
    rw [List.head?_reverse] at hc
    exact h2 c hc

theorem trimChars_id_of_no_ws (l : List Char) (h : ∀ c ∈ l, isWsChar c = false) :
    jsTrimChars l = l := by
  refine trimChars_id l ?_ ?_
  · intro c hc
    exact h c (List.mem_of_mem_head? (by rw [hc]; rfl))
  · intro c hc
    exact h c (mem_of_getLast? hc)

/-! ### Round-trip lemmas: decimal printing and parsing -/

theorem digitChar_isDigit (d : Nat) : isDigitChar (digitChar d) = true := by
  unfold digitChar
  rcases d with _|_|_|_|_|_|_|_|_|d <;> rfl

theorem digitChar_toNat (d : Nat) (h : d < 10) : (digitChar d).toNat = 48 + d := by
  unfold digitChar
  rcases d with _|_|_|_|_|_|_|_|_|d
  · rfl
  · rfl
  · rfl
  · rfl
  · rfl
  · rfl
  · rfl
  · rfl
  · rfl
  · have hd : d = 0 := by omega
    subst hd
    rfl

theorem digitVal_digitChar (d : Nat) (h : d < 10) : digitVal (digitChar d) = d := by
  unfold digitVal
  rw [digitChar_toNat d h]
  omega

theorem digitsVal_append (l : List Char) (c : Char) :
    digitsVal (l ++ [c]) = digitsVal l * 10 + digitVal c := by
  unfold digitsVal
  rw [List.foldl_append]
  rfl

theorem natDigits_spec : ∀ (fuel n : Nat), n < fuel →
    (natDigits fuel n ≠ [] ∧ (∀ c ∈ natDigits fuel n, isDigitChar c = true) ∧
      digitsVal (natDigits fuel n) = n) := by
  intro fuel
  induction fuel with
  | zero => intro n h; omega
  | succ fuel ih =>
    intro n h
    rw [natDigits]
    by_cases h10 : n < 10
    · rw [if_pos h10]
      refine ⟨by simp, ?_, ?_⟩
      · intro c hc
        rw [List.mem_singleton] at hc
        subst hc
        exact digitChar_isDigit n
      · show digitsVal ([] ++ [digitChar n]) = n
        rw [digitsVal_append, digitVal_digitChar n h10]
        simp [digitsVal]
    · rw [if_neg h10]
      have hrec : n / 10 < fuel := by omega
      obtain ⟨hne, hdig, hval⟩ := ih (n / 10) hrec
      refine ⟨by simp [hne], ?_, ?_⟩
      · intro c hc
        rcases List.mem_append.mp hc with hc' | hc'
        · exact hdig c hc'
        · rw [List.mem_singleton] at hc'
          subst hc'
          exact digitChar_isDigit (n % 10)
      · rw [digitsVal_append, hval, digitVal_digitChar (n % 10) (by omega)]
        omega

theorem not_ws_of_digit (c : Char) (h : isDigitChar c = true) : isWsChar c = false := by
  simp only [isDigitChar, Bool.and_eq_true, decide_eq_true_eq] at h
  simp only [isWsChar, Bool.or_eq_false_iff, decide_eq_false_iff_not]
  refine ⟨⟨⟨?_, ?_⟩, ?_⟩, ?_⟩ <;>
    · intro heq
      rw [heq] at h
      exact absurd h (by decide)

theorem not_comma_of_digit (c : Char) (h : isDigitChar c = true) : c ≠ ',' := by
  simp only [isDigitChar, Bool.and_eq_true, decide_eq_true_eq] at h
  intro heq
  rw [heq] at h
  exact absurd h (by decide)

theorem not_dash_of_digit (c : Char) (h : isDigitChar c = true) : c ≠ '-' ∧ c ≠ '+' := by
  simp only [isDigitChar, Bool.and_eq_true, decide_eq_true_eq] at h
  constructor <;>
    · intro heq
      rw [heq] at h
      exact absurd h (by decide)

theorem jsToNumber_jsNatToString (n : Nat) : jsToNumber (jsNatToString n) = some (n : Int) := by
  obtain ⟨hne, hdig, hval⟩ := natDigits_spec (n + 1) n (Nat.lt_succ_self n)
  unfold jsToNumber jsNatToString
  simp only [data_mk]
  have htrim : jsTrimChars (natDigits (n + 1) n) = natDigits (n + 1) n :=
    trimChars_id_of_no_ws _ (fun c hc => not_ws_of_digit c (hdig c hc))
  rw [htrim]
  have hhead : isDigitChar ((natDigits (n + 1) n).headD ' ') = true :=
    hdig _ (headD_mem _ _ hne)
  rw [if_neg hne, if_neg (not_dash_of_digit _ hhead).1, if_neg (not_dash_of_digit _ hhead).2,
    if_pos (List.all_eq_true.mpr hdig), hval]

theorem data_append (s t : String) : (s ++ t).data = s.data ++ t.data := rfl

theorem jsToNumber_jsNumToString (i : Int) : jsToNumber (jsNumToString i) = some i := by
  unfold jsNumToString
  by_cases h : i < 0
  · rw [if_pos h]
    obtain ⟨hne, hdig, hval⟩ := natDigits_spec (i.natAbs + 1) i.natAbs (Nat.lt_succ_self _)
    unfold jsToNumber jsNatToString
    rw [data_append]
    have hlist : ("-" : String).data ++ (String.mk (natDigits (i.natAbs + 1) i.natAbs)).data =
        '-' :: natDigits (i.natAbs + 1) i.natAbs := rfl
    rw [hlist]
    have htrim : jsTrimChars ('-' :: natDigits (i.natAbs + 1) i.natAbs) =
        '-' :: natDigits (i.natAbs + 1) i.natAbs := by
      refine trimChars_id_of_no_ws _ ?_
      intro c hc
      rcases List.mem_cons.mp hc with rfl | hc'
      · rfl
      · exact not_ws_of_digit c (hdig c hc')
    rw [htrim]
    rw [if_neg (by simp),
      if_pos (show ('-' :: natDigits (i.natAbs + 1) i.natAbs).headD ' ' = '-' from rfl)]
    simp only [List.tail_cons]
    rw [if_pos ⟨hne, List.all_eq_true.mpr hdig⟩, hval]
    congr 1
    omega
  · rw [if_neg h]
    rw [jsToNumber_jsNatToString]
    congr 1
    exact Int.toNat_of_nonneg (Int.not_lt.mp h)

/-! ### Round-trip lemmas: JSON string quoting -/

theorem hexDigit_ne (d : Nat) : hexDigit d ≠ '\n' ∧ hexDigit d ≠ ',' := by
  unfold hexDigit
  rcases d with _|_|_|_|_|_|_|_|_|_|_|_|_|_|_|d <;>
    first
      | decide
      | (show ('f' : Char) ≠ '\n' ∧ ('f' : Char) ≠ ','
         decide)

theorem escapeChar_chars (c : Char) :
    ∀ c' ∈ escapeChar c, c' ≠ '\n' ∧ (c' = ',' → c = ',') := by
  intro c' hc'
  unfold escapeChar at hc'
  by_cases h1 : c = '"'
  · rw [if_pos h1] at hc'
    fin_cases hc' <;> exact ⟨by decide, fun h => absurd h (by decide)⟩
  · rw [if_neg h1] at hc'
    by_cases h2 : c = '\\'
    · rw [if_pos h2] at hc'
      fin_cases hc' <;> exact ⟨by decide, fun h => absurd h (by decide)⟩
    · rw [if_neg h2] at hc'
      by_cases h3 : c = '\n'
      · rw [if_pos h3] at hc'
        fin_cases hc' <;> exact ⟨by decide, fun h => absurd h (by decide)⟩
      · rw [if_neg h3] at hc'
        by_cases h4 : c = '\r'
        · rw [if_pos h4] at hc'
          fin_cases hc' <;> exact ⟨by decide, fun h => absurd h (by decide)⟩
        · rw [if_neg h4] at hc'
          by_cases h5 : c = '\t'
          · rw [if_pos h5] at hc'
            fin_cases hc' <;> exact ⟨by decide, fun h => absurd h (by decide)⟩
          · rw [if_neg h5] at hc'
            by_cases h6 : c = '\x08'
            · rw [if_pos h6] at hc'
              fin_cases hc' <;> exact ⟨by decide, fun h => absurd h (by decide)⟩
            · rw [if_neg h6] at hc'
              by_cases h7 : c = '\x0c'
              · rw [if_pos h7] at hc'
                fin_cases hc' <;> exact ⟨by decide, fun h => absurd h (by decide)⟩
              · rw [if_neg h7] at hc'
                by_cases h8 : c.toNat < 32
                · rw [if_pos h8] at hc'
                  fin_cases hc'
                  · exact ⟨by decide, fun h => absurd h (by decide)⟩
                  · exact ⟨by decide, fun h => absurd h (by decide)⟩
                  · exact ⟨by decide, fun h => absurd h (by decide)⟩
                  · exact ⟨by decide, fun h => absurd h (by decide)⟩
                  · exact ⟨(hexDigit_ne _).1, fun hcm => absurd hcm (hexDigit_ne _).2⟩
                  · exact ⟨(hexDigit_ne _).1, fun hcm => absurd hcm (hexDigit_ne _).2⟩
                · rw [if_neg h8] at hc'
                  rw [List.mem_singleton] at hc'
                  subst hc'
                  refine ⟨h3, fun h => h⟩

theorem escBody_eq_fold (s : String) :
    escBody s = s.data.foldr (fun c acc => escapeChar c ++ acc) [] := rfl

theorem escFold_chars : ∀ (l : List Char), (',' ∉ l) →
    ∀ c' ∈ l.foldr (fun c acc => escapeChar c ++ acc) [], c' ≠ '\n' ∧ c' ≠ ',' := by
  intro l
  induction l with
  | nil => intro _ c' hc'; simp at hc'
  | cons c t ih =>
    intro h c' hc'
    rw [List.foldr_cons] at hc'
    rcases List.mem_append.mp hc' with hc'' | hc''
    · obtain ⟨hn, hcm⟩ := escapeChar_chars c c' hc''
      refine ⟨hn, ?_⟩
      intro heq
      have := hcm heq
      exact absurd (this ▸ List.mem_cons_self c t) h
    · exact ih (fun hmem => h (List.mem_cons_of_mem _ hmem)) c' hc''

theorem jsonQuote_data (s : String) :
    (jsonQuote s).data = '"' :: (escBody s ++ ['"']) := rfl

theorem jsonQuote_chars (s : String) (h : ',' ∉ s.data) :
    ∀ c' ∈ (jsonQuote s).data, c' ≠ '\n' ∧ c' ≠ ',' := by
  intro c' hc'
  rw [jsonQuote_data] at hc'
  rcases List.mem_cons.mp hc' with rfl | hc''
  · exact ⟨by decide, by decide⟩
  · rcases List.mem_append.mp hc'' with hc3 | hc3
    · exact escFold_chars s.data h c' (escBody_eq_fold s ▸ hc3)
    · rw [List.mem_singleton] at hc3
      subst hc3
      exact ⟨by decide, by decide⟩

theorem jsTrim_jsonQuote (s : String) : jsTrim (jsonQuote s) = jsonQuote s := by
  unfold jsTrim
  rw [trimChars_id, mk_data]
  · intro c hc
    rw [jsonQuote_data] at hc
    simp only [List.head?_cons, Option.some.injEq] at hc
    subst hc
    rfl
  · intro c hc
    rw [jsonQuote_data] at hc
    rw [show ('"' :: (escBody s ++ ['"'])) = ('"' :: escBody s) ++ ['"'] by simp] at hc
    rw [List.getLast?_concat] at hc
    rw [Option.some.injEq] at hc
    subst hc
    rfl

theorem jsToNumber_jsonQuote (s : String) : jsToNumber (jsonQuote s) = none := by
  unfold jsToNumber
  have htrim : jsTrimChars (jsonQuote s).data = (jsonQuote s).data := by
    have := jsTrim_jsonQuote s
    unfold jsTrim at this
    have h2 := congrArg String.data this
    rwa [data_mk] at h2
  rw [htrim, jsonQuote_data]
  rw [if_neg (by simp)]
  have hh : ('"' :: (escBody s ++ ['"'])).headD ' ' = '"' := rfl
  rw [hh]
  rw [if_neg (by decide)]
  rw [if_neg (by decide)]
  rw [if_neg ?_]
  intro hall
  have := List.all_eq_true.mp hall '"' (List.mem_cons_self _ _)
  exact absurd this (by decide)

/-! ### Round-trip lemmas: cells and records -/

/-- The value the amended round-trip statement describes for one field:
numbers are reproduced exactly, text comes back as its JSON-quoted form
(and a missing field, defaulted to the empty string, as the quoted empty
string). -/
def roundVal : Value → Value
  | .num n => .num n
  | .str s => .str (jsonQuote s)
  | .undef => .str (jsonQuote "")

theorem parseCell_writeCell (v : Value) : parseCell (writeCell v) = roundVal v := by
  cases v with
  | num n =>
    unfold writeCell parseCell roundVal
    rw [jsToNumber_jsNumToString]
  | str s =>
    unfold writeCell parseCell roundVal
    rw [jsToNumber_jsonQuote]
  | undef =>
    unfold writeCell parseCell roundVal
    rw [jsToNumber_jsonQuote]

theorem jsNumToString_chars (i : Int) :
    ∀ c ∈ (jsNumToString i).data, isWsChar c = false ∧ c ≠ ',' := by
  intro c hc
  unfold jsNumToString at hc
  by_cases h : i < 0
  · rw [if_pos h] at hc
    rw [data_append] at hc
    rcases List.mem_append.mp hc with hc' | hc'
    · have hc2 : c = '-' := by
        have hm : c ∈ ['-'] := hc'
        simpa using hm
      subst hc2
      exact ⟨by decide, by decide⟩
    · obtain ⟨_, hdig, _⟩ := natDigits_spec (i.natAbs + 1) i.natAbs (Nat.lt_succ_self _)
      have := hdig c (by simpa [jsNatToString] using hc')
      exact ⟨not_ws_of_digit c this, not_comma_of_digit c this⟩
  · rw [if_neg h] at hc
    obtain ⟨_, hdig, _⟩ := natDigits_spec (i.toNat + 1) i.toNat (Nat.lt_succ_self _)
    have := hdig c (by simpa [jsNatToString] using hc)
    exact ⟨not_ws_of_digit c this, not_comma_of_digit c this⟩

theorem writeCell_chars (v : Value) (hstr : ∀ s, v = .str s → ',' ∉ s.data) :
    ∀ c ∈ (writeCell v).data, c ≠ '\n' ∧ c ≠ ',' := by
  intro c hc
  cases v with
  | num n =>
    obtain ⟨hws, hcm⟩ := jsNumToString_chars n c hc
    refine ⟨?_, hcm⟩
    intro heq
    rw [heq] at hws
    exact absurd hws (by decide)
  | str s => exact jsonQuote_chars s (hstr s rfl) c hc
  | undef => exact jsonQuote_chars "" (by simp) c hc

theorem writeCell_ne_empty (v : Value) : (writeCell v).data ≠ [] := by
  cases v with
  | num n =>
    show (jsNumToString n).data ≠ []
    unfold jsNumToString
    by_cases h2 : n < 0
    · rw [if_pos h2, data_append]
      simp
    · rw [if_neg h2]
      exact (natDigits_spec (n.toNat + 1) n.toNat (Nat.lt_succ_self _)).1
  | str s =>
    show (jsonQuote s).data ≠ []
    rw [jsonQuote_data]
    simp
  | undef =>
    show (jsonQuote "").data ≠ []
    rw [jsonQuote_data]
    simp

theorem jsTrim_writeCell (v : Value) : jsTrim (writeCell v) = writeCell v := by
  cases v with
  | num n =>
    show jsTrim (jsNumToString n) = jsNumToString n
    unfold jsTrim
    rw [trimChars_id_of_no_ws _ (fun c hc => (jsNumToString_chars n c hc).1), mk_data]
  | str s => exact jsTrim_jsonQuote s
  | undef => exact jsTrim_jsonQuote ""

theorem writeCell_last_not_ws (v : Value) :
    ∀ c, (writeCell v).data.getLast? = some c → isWsChar c = false := by
  intro c hc
  cases v with
  | num n => exact (jsNumToString_chars n c (mem_of_getLast? hc)).1
  | str s =>
    rw [writeCell, jsonQuote_data,
      show ('"' :: (escBody s ++ ['"'])) = ('"' :: escBody s) ++ ['"'] by simp,
      List.getLast?_concat, Option.some.injEq] at hc
    rw [← hc]
    rfl
  | undef =>
    rw [writeCell, jsonQuote_data,
      show ('"' :: (escBody "" ++ ['"'])) = ('"' :: escBody "") ++ ['"'] by simp,
      List.getLast?_concat, Option.some.injEq] at hc
    rw [← hc]
    rfl

theorem getField_cases (r : Rec) (k : String) :
    getField r k = .undef ∨ ∃ kv ∈ r, kv.1 = k ∧ getField r k = kv.2 := by
  induction r with
  | nil => exact Or.inl rfl
  | cons e rest ih =>
    by_cases h : e.1 = k
    · refine Or.inr ⟨e, List.mem_cons_self _ _, h, ?_⟩
      obtain ⟨k', v'⟩ := e
      simp only [getField]
      rw [if_pos h]
    · rcases ih with h' | ⟨kv, hkv, hk, hv⟩
      · refine Or.inl ?_
        obtain ⟨k', v'⟩ := e
        simp only [getField]
        rw [if_neg h]
        exact h'
      · refine Or.inr ⟨kv, List.mem_cons_of_mem _ hkv, hk, ?_⟩
        obtain ⟨k', v'⟩ := e
        simp only [getField]
        rw [if_neg h]
        exact hv

theorem map_getField_keys : ∀ (r : Rec), (recKeys r).Nodup →
    (recKeys r).map (fun h => getField r h) = r.map Prod.snd := by
  intro r
  induction r with
  | nil => intro _; rfl
  | cons e rest ih =>
    intro hnd
    obtain ⟨k, v⟩ := e
    have hk_notin : k ∉ recKeys rest := (List.nodup_cons.mp hnd).1
    have hnd' : (recKeys rest).Nodup := (List.nodup_cons.mp hnd).2
    show (k :: recKeys rest).map (fun h => getField ((k, v) :: rest) h) =
      v :: rest.map Prod.snd
    rw [List.map_cons]
    congr 1
    · simp [getField]
    · rw [← ih hnd']
      refine List.map_congr_left ?_
      intro h hmem
      simp only [getField]
      rw [if_neg (fun hc : k = h => hk_notin (hc ▸ hmem))]

theorem foldl_setField_fresh :
    ∀ (pairs : List (String × Value)) (acc : Rec),
      (pairs.map Prod.fst).Nodup → (∀ q ∈ pairs, ∀ e ∈ acc, e.1 ≠ q.1) →
      pairs.foldl (fun obj kv => setField obj kv.1 kv.2) acc = acc ++ pairs := by
  intro pairs
  induction pairs with
  | nil => intro acc _ _; simp
  | cons q qs ih =>
    intro acc hnd hfresh
    have hnd2 : (q.1 :: qs.map Prod.fst).Nodup := by simpa using hnd
    rw [List.foldl_cons]
    rw [setField_fresh acc q.1 q.2 (fun e he => hfresh q (List.mem_cons_self _ _) e he)]
    rw [ih (acc ++ [q]) (List.nodup_cons.mp hnd2).2 ?_]
    · simp
    · intro q' hq' e he
      rcases List.mem_append.mp he with he' | he'
      · exact hfresh q' (List.mem_cons_of_mem _ hq') e he'
      · rw [List.mem_singleton] at he'
        subst he'
        have hni := (List.nodup_cons.mp hnd2).1
        intro hc
        exact hni (hc ▸ List.mem_map_of_mem Prod.fst hq')

theorem buildRecord_eq (headers vals : List String) (hnd : headers.Nodup)
    (hlen : vals.length = headers.length) :
    buildRecord headers vals = (headers.zip vals).map (fun hv => (hv.1, parseCell hv.2)) := by
  unfold buildRecord
  have hfold : (headers.zip vals).foldl (fun obj hv => setField obj hv.1 (parseCell hv.2)) [] =
      ((headers.zip vals).map (fun hv => (hv.1, parseCell hv.2))).foldl
        (fun obj kv => setField obj kv.1 kv.2) [] := by
    rw [List.foldl_map]
  rw [hfold]
  rw [foldl_setField_fresh _ [] ?_ (by intro q _ e he; simp at he)]
  · simp
  · rw [List.map_map]
    have : ((headers.zip vals).map (Prod.fst ∘ fun hv => (hv.1, parseCell hv.2))) =
        (headers.zip vals).map Prod.fst := rfl
    rw [this, List.map_fst_zip headers vals (by omega)]
    exact hnd

/-! ### Round-trip lemmas: assembling lines -/

theorem joinCharList_mem (sep : Char) :
    ∀ (pieces : List (List Char)) (c : Char),
      c ∈ joinCharList sep pieces → c = sep ∨ ∃ p ∈ pieces, c ∈ p := by
  intro pieces
  induction pieces with
  | nil => intro c hc; simp [joinCharList] at hc
  | cons p ps ih =>
    intro c hc
    cases ps with
    | nil =>
      rw [joinCharList] at hc
      exact Or.inr ⟨p, List.mem_cons_self _ _, hc⟩
    | cons q qs =>
      rw [joinCharList] at hc
      · rcases List.mem_append.mp hc with hc' | hc'
        · exact Or.inr ⟨p, List.mem_cons_self _ _, hc'⟩
        · rcases List.mem_cons.mp hc' with rfl | hc''
          · exact Or.inl rfl
          · rcases ih c hc'' with h | ⟨p', hp', hcp⟩
            · exact Or.inl h
            · exact Or.inr ⟨p', List.mem_cons_of_mem _ hp', hcp⟩
      · exact fun hq => List.noConfusion hq

theorem joinCharList_ne_nil2 (sep : Char) (a b : List Char) (rest : List (List Char)) :
    joinCharList sep (a :: b :: rest) ≠ [] := by
  rw [joinCharList]
  · simp
  · exact fun hq => List.noConfusion hq

theorem joinCharList_ne_nil_first (sep : Char) (p : List Char) (ps : List (List Char))
    (hp : p ≠ []) : joinCharList sep (p :: ps) ≠ [] := by
  cases ps with
  | nil => exact hp
  | cons q qs => exact joinCharList_ne_nil2 sep p q qs

theorem joinCharList_head? (sep : Char) (p : List Char) (ps : List (List Char)) (hp : p ≠ []) :
    (joinCharList sep (p :: ps)).head? = p.head? := by
  cases ps with
  | nil => rfl
  | cons q qs =>
    rw [joinCharList]
    · exact List.head?_append_of_ne_nil p hp
    · exact fun hq => List.noConfusion hq

theorem getLast?_cons_of_ne_nil {α : Type _} (a : α) (l : List α) (h : l ≠ []) :
    (a :: l).getLast? = l.getLast? := by
  rw [show a :: l = [a] ++ l from rfl]
  exact List.getLast?_append_of_ne_nil [a] h

theorem joinCharList_getLast? (sep : Char) :
    ∀ (pieces : List (List Char)) (lp : List Char),
      pieces.getLast? = some lp → lp ≠ [] →
      (joinCharList sep pieces).getLast? = lp.getLast? := by
  intro pieces
  induction pieces with
  | nil => intro lp h _; simp at h
  | cons p ps ih =>
    intro lp h hlp
    cases ps with
    | nil =>
      have : p = lp := by simpa using h
      subst this
      rfl
    | cons q qs =>
      have htail : (q :: qs).getLast? = some lp := by
        rw [← getLast?_cons_of_ne_nil p (q :: qs) (List.cons_ne_nil _ _)]
        exact h
      have hjoin_ne : joinCharList sep (q :: qs) ≠ [] := by
        cases qs with
        | nil =>
          have : q = lp := by simpa using htail
          subst this
          exact hlp
        | cons r rs => exact joinCharList_ne_nil2 sep q r rs
      rw [joinCharList]
      · rw [List.getLast?_append_of_ne_nil p (List.cons_ne_nil _ _)]
        rw [getLast?_cons_of_ne_nil sep _ hjoin_ne]
        exact ih lp htail hlp
      · exact fun hq => List.noConfusion hq

/-- The hypothesis on a record value for the amended round-trip: a number,
or a text containing no comma (a missing `undefined` value is excluded). -/
def valOK : Value → Prop
  | .num _ => True
  | .str s => ',' ∉ s.data
  | .undef => False

instance : DecidablePred valOK := fun v =>
  match v with
  | .num _ => isTrue trivial
  | .str s => inferInstanceAs (Decidable (',' ∉ s.data))
  | .undef => isFalse (fun h => h)

theorem getField_str_comma (row : Rec) (hvals : ∀ kv ∈ row, valOK kv.2) (h : String) :
    ∀ s, getField row h = .str s → ',' ∉ s.data := by
  intro s hs
  rcases getField_cases row h with hu | ⟨kv, hkv, _, hv⟩
  · rw [hu] at hs; cases hs
  · rw [hv] at hs
    have := hvals kv hkv
    rw [hs] at this
    exact this

theorem rowLine_parse (headers : List String) (row : Rec) (hne : headers ≠ [])
    (hvals : ∀ kv ∈ row, valOK kv.2) :
    (jsSplit (rowLine headers row) ',').map jsTrim =
      headers.map (fun h => writeCell (getField row h)) := by
  unfold rowLine
  rw [jsSplit_jsJoin ',' _ (by simp [hne]) ?_]
  · rw [List.map_map]
    refine List.map_congr_left ?_
    intro h _
    exact jsTrim_writeCell _
  · intro s hs c hc
    rcases List.mem_map.mp hs with ⟨h, _, rfl⟩
    exact (writeCell_chars _ (getField_str_comma row hvals h) c hc).2

theorem rowLine_chars (headers : List String) (row : Rec)
    (hvals : ∀ kv ∈ row, valOK kv.2) :
    ∀ c ∈ (rowLine headers row).data, c ≠ '\n' := by
  intro c hc
  unfold rowLine jsJoin at hc
  rw [data_mk] at hc
  rcases joinCharList_mem ',' _ c hc with rfl | ⟨p, hp, hcp⟩
  · decide
  · rcases List.mem_map.mp hp with ⟨s, hs, rfl⟩
    rcases List.mem_map.mp hs with ⟨h, _, rfl⟩
    exact (writeCell_chars _ (getField_str_comma row hvals h) c hcp).1

theorem readCsvRows_map (headers : List String) (hne : headers ≠ []) (hnd : headers.Nodup) :
    ∀ (recs : List Rec) (idx : Nat),
      (∀ rec ∈ recs, recKeys rec = headers) →
      (∀ rec ∈ recs, ∀ kv ∈ rec, valOK kv.2) →
      readCsvRows headers (recs.map (rowLine headers)) idx =
        .ok (recs.map (fun rec => rec.map (fun kv => (kv.1, roundVal kv.2)))) := by
  intro recs
  induction recs with
  | nil => intro idx _ _; rfl
  | cons rec rest ih =>
    intro idx hkeys hvals
    rw [List.map_cons, readCsvRows]
    have hcells := rowLine_parse headers rec hne (hvals rec (List.mem_cons_self _ _))
    rw [hcells]
    have hlen : (headers.map (fun h => writeCell (getField rec h))).length = headers.length := by
      simp
    rw [if_neg (not_ne_iff.mpr hlen)]
    rw [ih (idx + 1) (fun r hr => hkeys r (List.mem_cons_of_mem _ hr))
      (fun r hr => hvals r (List.mem_cons_of_mem _ hr))]
    have hbuild : buildRecord headers (headers.map (fun h => writeCell (getField rec h))) =
        rec.map (fun kv => (kv.1, roundVal kv.2)) := by
      rw [buildRecord_eq headers _ hnd (by simp)]
      have hk := hkeys rec (List.mem_cons_self _ _)
      rw [← hk]
      have h1 : (recKeys rec).map (fun h => writeCell (getField rec h)) =
          rec.map (fun kv => writeCell kv.2) := by
        rw [show (fun h => writeCell (getField rec h)) =
          (writeCell ∘ fun h => getField rec h) from rfl]
        rw [← List.map_map]
        rw [map_getField_keys rec (hk ▸ hnd)]
        rw [List.map_map]
        rfl
      rw [h1]
      rw [show recKeys rec = rec.map Prod.fst from rfl]
      rw [show (fun kv : String × Value => writeCell kv.2) =
        (fun kv : String × Value => writeCell (Prod.snd kv)) from rfl]
      rw [List.zip_map' Prod.fst (fun kv => writeCell (Prod.snd kv)) rec]
      rw [List.map_map]
      refine List.map_congr_left ?_
      intro kv _
      show (kv.1, parseCell (writeCell kv.2)) = (kv.1, roundVal kv.2)
      rw [parseCell_writeCell]
    rw [hbuild]
    rfl

/-- C3 (amended): serializing a collection with `writeCsv` and parsing the
text back with `readCsv` restores every numeric field exactly, while every
text field comes back as the JSON-quoted form of the original text — the
round-trip is not the identity on text.  The provisos make the CSV text
well-formed: records share the first record's (nonempty, duplicate-free) key
sequence, keys contain no whitespace, comma or newline, and values are
numbers or comma-free text. -/
theorem c3_csv_roundtrip_quoted
    (data : List Rec)
    (hne : data ≠ [])
    (hhnd : (recKeys (data.headD [])).Nodup)
    (hhne : recKeys (data.headD []) ≠ [])
    (hclean : ∀ h ∈ recKeys (data.headD []),
      h.data ≠ [] ∧ ∀ c ∈ h.data, isWsChar c = false ∧ c ≠ ',' ∧ c ≠ '\n')
    (hkeys : ∀ rec ∈ data, recKeys rec = recKeys (data.headD []))
    (hvals : ∀ rec ∈ data, ∀ kv ∈ rec, valOK kv.2) :
    writeCsv data = .ok (jsJoin '\n'
        (jsJoin ',' (recKeys (data.headD [])) ::
          data.map (rowLine (recKeys (data.headD [])))))
    ∧ readCsv (jsJoin '\n'
        (jsJoin ',' (recKeys (data.headD [])) ::
          data.map (rowLine (recKeys (data.headD []))))) =
      .ok (data.map (fun rec => rec.map (fun kv => (kv.1, roundVal kv.2)))) := by
  set H := recKeys (data.headD []) with hHdef
  obtain ⟨h₁, H', hH⟩ := List.exists_cons_of_ne_nil hhne
  have hH1_ne : h₁.data ≠ [] := (hclean h₁ (by rw [hH]; exact List.mem_cons_self _ _)).1
  have hheadline_data : (jsJoin ',' H).data = joinCharList ',' (H.map String.data) := rfl
  have hfirstpiece_ne : (jsJoin ',' H).data ≠ [] := by
    rw [hheadline_data, hH, List.map_cons]
    exact joinCharList_ne_nil_first ',' h₁.data _ hH1_ne
  constructor
  · unfold writeCsv
    rw [if_neg (by simp [List.length_eq_zero, hne])]
  · -- the produced text is already trimmed
    have hcdata : (jsJoin '\n' (jsJoin ',' H :: data.map (rowLine H))).data =
        joinCharList '\n' ((jsJoin ',' H :: data.map (rowLine H)).map String.data) := rfl
    have hlr? : data.getLast? = some (data.getLast hne) := List.getLast?_eq_getLast data hne
    have hlrmem : data.getLast hne ∈ data := List.getLast_mem hne
    have hrowline_data : ∀ rec : Rec, (rowLine H rec).data =
        joinCharList ',' ((H.map (fun h => writeCell (getField rec h))).map String.data) :=
      fun rec => rfl
    have hrow_ne : ∀ rec : Rec, (rowLine H rec).data ≠ [] := by
      intro rec
      rw [hrowline_data, hH, List.map_cons, List.map_cons]
      exact joinCharList_ne_nil_first ',' _ _ (writeCell_ne_empty _)
    have htrim : jsTrim (jsJoin '\n' (jsJoin ',' H :: data.map (rowLine H))) =
        jsJoin '\n' (jsJoin ',' H :: data.map (rowLine H)) := by
      unfold jsTrim
      rw [trimChars_id _ ?_ ?_, mk_data]
      · -- the first character is the first character of the first header
        intro c hc
        rw [hcdata, List.map_cons] at hc
        rw [joinCharList_head? '\n' _ _ hfirstpiece_ne] at hc
        have hcmem : c ∈ (jsJoin ',' H).data := List.mem_of_mem_head? (by rw [hc]; rfl)
        rw [hheadline_data] at hcmem
        rcases joinCharList_mem ',' _ c hcmem with rfl | ⟨p, hp, hcp⟩
        · rfl
        · rcases List.mem_map.mp hp with ⟨h, hh, rfl⟩
          exact ((hclean h hh).2 c hcp).1
      · -- the last character is the last character of the last row's last cell
        intro c hc
        rw [hcdata, List.map_cons] at hc
        have htail_ne : (data.map (rowLine H)).map String.data ≠ [] := by
          simp [hne]
        have hlastpiece : ((data.map (rowLine H)).map String.data).getLast? =
            some ((rowLine H (data.getLast hne)).data) := by
          rw [List.getLast?_map, List.getLast?_map, hlr?]
          rfl
        have hlastline : ((jsJoin ',' H).data :: (data.map (rowLine H)).map String.data).getLast? =
            some ((rowLine H (data.getLast hne)).data) := by
          rw [getLast?_cons_of_ne_nil _ _ htail_ne]
          exact hlastpiece
        rw [joinCharList_getLast? '\n' _ _ hlastline (hrow_ne _)] at hc
        -- within the last row, the last character comes from the last cell
        have hHlast : H.getLast? = some (H.getLast hhne) := List.getLast?_eq_getLast H hhne
        have hcellslast :
            ((H.map (fun h => writeCell (getField (data.getLast hne) h))).map String.data).getLast? =
            some ((writeCell (getField (data.getLast hne) (H.getLast hhne))).data) := by
          rw [List.getLast?_map, List.getLast?_map, hHlast]
          rfl
        rw [hrowline_data] at hc
        rw [joinCharList_getLast? ',' _ _ hcellslast (writeCell_ne_empty _)] at hc
        exact writeCell_last_not_ws _ c hc
    have hlines : jsSplit (jsJoin '\n' (jsJoin ',' H :: data.map (rowLine H))) '\n' =
        jsJoin ',' H :: data.map (rowLine H) := by
      refine jsSplit_jsJoin '\n' _ (List.cons_ne_nil _ _) ?_
      intro s hs c hc
      rcases List.mem_cons.mp hs with rfl | hs'
      · rw [hheadline_data] at hc
        rcases joinCharList_mem ',' _ c hc with rfl | ⟨p, hp, hcp⟩
        · decide
        · rcases List.mem_map.mp hp with ⟨h, hh, rfl⟩
          exact ((hclean h hh).2 c hcp).2.2
      · rcases List.mem_map.mp hs' with ⟨rec, hrec, rfl⟩
        exact rowLine_chars H rec (hvals rec hrec) c hc
    have hheaders : (jsSplit (jsJoin ',' H) ',').map jsTrim = H := by
      rw [jsSplit_jsJoin ',' H hhne ?_]
      · have hmapid : H.map jsTrim = H.map id :=
          List.map_congr_left (fun h hh => by
            unfold jsTrim
            rw [trimChars_id_of_no_ws _ (fun c hc => ((hclean h hh).2 c hc).1), mk_data]
            rfl)
        rw [hmapid, List.map_id]
      · intro s hs c hc
        exact ((hclean s hs).2 c hc).2.1
    unfold readCsv
    rw [htrim, hlines]
    simp only [List.headD_cons, List.tail_cons]
    rw [hheaders]
    exact readCsvRows_map H hhne hhnd data 0 hkeys hvals

/-- Witness for C3 at a concrete two-record collection: the numbers come
back equal and the texts come back JSON-quoted. -/
theorem c3_csv_roundtrip_quoted_witness :
    writeCsv [[("id", Value.num 1), ("name", Value.str "Alice")],
              [("id", Value.num 2), ("name", Value.str "Bob")]] =
      .ok (jsJoin '\n'
        (jsJoin ','
            (recKeys (([[("id", Value.num 1), ("name", Value.str "Alice")],
              [("id", Value.num 2), ("name", Value.str "Bob")]] : List Rec).headD [])) ::
          ([[("id", Value.num 1), ("name", Value.str "Alice")],
            [("id", Value.num 2), ("name", Value.str "Bob")]] : List Rec).map
            (rowLine (recKeys (([[("id", Value.num 1), ("name", Value.str "Alice")],
              [("id", Value.num 2), ("name", Value.str "Bob")]] : List Rec).headD [])))))
    ∧ readCsv (jsJoin '\n'
        (jsJoin ','
            (recKeys (([[("id", Value.num 1), ("name", Value.str "Alice")],
              [("id", Value.num 2), ("name", Value.str "Bob")]] : List Rec).headD [])) ::
          ([[("id", Value.num 1), ("name", Value.str "Alice")],
            [("id", Value.num 2), ("name", Value.str "Bob")]] : List Rec).map
            (rowLine (recKeys (([[("id", Value.num 1), ("name", Value.str "Alice")],
              [("id", Value.num 2), ("name", Value.str "Bob")]] : List Rec).headD []))))) =
      .ok (([[("id", Value.num 1), ("name", Value.str "Alice")],
            [("id", Value.num 2), ("name", Value.str "Bob")]] : List Rec).map
        (fun rec => rec.map (fun kv => (kv.1, roundVal kv.2)))) :=
  c3_csv_roundtrip_quoted
    [[("id", Value.num 1), ("name", Value.str "Alice")],
     [("id", Value.num 2), ("name", Value.str "Bob")]]
    (by decide) (by decide) (by decide) (by decide) (by decide) (by decide)

end WorkflowData
